import Mathlib

/-!
# Verification of `update_profile.py`

A shallow embedding of the repository's single source file
(`src/update_profile.py`), which fetches a GitHub account's repositories,
ranks them by star count, and rewrites marker-delimited regions of a
markdown profile file with generated stats-card links.

Strings are modelled as `List Char`; JSON dictionaries whose keys are read
with `dict.get(key, default)` are modelled as structures with `Option`
fields.  The regex substitution of `re.sub` (with the fixed pattern shape
used by the script, a sequence of literals and lazy `[\s\S]*?` / `.*?`
gaps) is modelled by an executable backtracking matcher.
-/

set_option maxHeartbeats 1000000
set_option maxRecDepth 100000

namespace UpdateProfile

/-- A repository entry as returned by the GitHub API.  Fields mirror the
JSON dictionary keys read by `update_profile.py`; `none` stands for an
absent (or `null`) key, matching the `dict.get(k, default)` accesses. -/
structure Repo where
  name : Option String
  html_url : Option String
  stargazers_count : Option Nat
  owner_login : Option String
deriving DecidableEq, Repr

/-- The sort key `x.get('stargazers_count', 0)` used on line 58. -/
def starKey (r : Repo) : Nat := r.stargazers_count.getD 0

/-- Stable insertion step for a non-increasing order on `starKey`: the
inserted element (which comes earlier in the original list) is placed
before any element with an equal key. -/
def insertDesc (x : Repo) : List Repo → List Repo
  | [] => [x]
  | y :: ys => if starKey y ≤ starKey x then x :: y :: ys else y :: insertDesc x ys

/-- Model of `repos.sort(key=lambda x: x.get('stargazers_count', 0),
reverse=True)` (line 58).  Python's sort is stable and `reverse=True`
keeps equal-key elements in their original relative order, which is
exactly what this stable insertion sort computes. -/
def sortStarsDesc : List Repo → List Repo
  | [] => []
  | x :: xs => insertDesc x (sortStarsDesc xs)

/-- Lines 57–59: sort the accumulated entries by stars descending and
return the first `limit` entries (`repos[:limit]`). -/
def rankRepos (repos : List Repo) (limit : Nat) : List Repo :=
  (sortStarsDesc repos).take limit

theorem mem_insertDesc {b x : Repo} {l : List Repo} :
    b ∈ insertDesc x l ↔ b = x ∨ b ∈ l := by
  induction l with
  | nil => simp [insertDesc]
  | cons y ys ih =>
    by_cases h : starKey y ≤ starKey x
    · simp [insertDesc, h]
    · simp only [insertDesc, if_neg h, List.mem_cons, ih]
      tauto

theorem pairwise_insertDesc {x : Repo} {l : List Repo}
    (h : l.Pairwise (fun a b => starKey b ≤ starKey a)) :
    (insertDesc x l).Pairwise (fun a b => starKey b ≤ starKey a) := by
  induction l with
  | nil => simp [insertDesc]
  | cons y ys ih =>
    rw [List.pairwise_cons] at h
    obtain ⟨hy, hys⟩ := h
    by_cases hxy : starKey y ≤ starKey x
    · simp only [insertDesc, if_pos hxy, List.pairwise_cons]
      refine ⟨?_, ?_, hys⟩
      · intro b hb
        rcases List.mem_cons.mp hb with hb | hb
        · subst hb
          exact hxy
        · exact le_trans (hy b hb) hxy
      · exact hy
    · simp only [insertDesc, if_neg hxy, List.pairwise_cons]
      refine ⟨?_, ih hys⟩
      intro b hb
      rcases mem_insertDesc.mp hb with hb | hb
      · subst hb
        exact le_of_lt (lt_of_not_le hxy)
      · exact hy b hb

theorem pairwise_sortStarsDesc (l : List Repo) :
    (sortStarsDesc l).Pairwise (fun a b => starKey b ≤ starKey a) := by
  induction l with
  | nil => simp [sortStarsDesc]
  | cons x xs ih => exact pairwise_insertDesc ih

theorem filter_insertDesc_pos {x : Repo} {s : Nat} (hx : starKey x = s)
    (l : List Repo) :
    (insertDesc x l).filter (fun r => starKey r == s)
      = x :: l.filter (fun r => starKey r == s) := by
  induction l with
  | nil => simp [insertDesc, hx]
  | cons y ys ih =>
    by_cases hxy : starKey y ≤ starKey x
    · simp only [insertDesc, if_pos hxy]
      simp [List.filter_cons, hx]
    · have hy : ¬ (starKey y == s) = true := by
        simp only [beq_iff_eq]
        omega
      simp only [insertDesc, if_neg hxy]
      simp [List.filter_cons, hy, ih]

theorem filter_insertDesc_neg {x : Repo} {s : Nat} (hx : starKey x ≠ s)
    (l : List Repo) :
    (insertDesc x l).filter (fun r => starKey r == s)
      = l.filter (fun r => starKey r == s) := by
  have hxb : ¬ (starKey x == s) = true := by simpa using hx
  induction l with
  | nil => simp [insertDesc, hxb]
  | cons y ys ih =>
    by_cases hxy : starKey y ≤ starKey x
    · simp [insertDesc, hxy, List.filter_cons, hxb]
    · simp [insertDesc, hxy, List.filter_cons, ih]

theorem filter_sortStarsDesc (l : List Repo) (s : Nat) :
    (sortStarsDesc l).filter (fun r => starKey r == s)
      = l.filter (fun r => starKey r == s) := by
  induction l with
  | nil => rfl
  | cons x xs ih =>
    by_cases hx : starKey x = s
    · rw [sortStarsDesc, filter_insertDesc_pos hx, ih, List.filter_cons,
        if_pos (by simpa using hx)]
    · rw [sortStarsDesc, filter_insertDesc_neg hx, ih, List.filter_cons,
        if_neg (by simpa using hx)]

/-- C1: for every list of accumulated repository entries and every limit,
the list returned by the fetch operation (model: `rankRepos`) has length
at most the limit, is sorted by star count in non-increasing order, and
entries with equal star counts keep the relative order in which they were
accumulated: for each star value `s`, the equal-star entries of the result
are an initial segment, in order, of the equal-star entries of the input. -/
theorem C1_ranked_list_bounded_sorted_stable (l : List Repo) (n : Nat) :
    (rankRepos l n).length ≤ n ∧
    (rankRepos l n).Pairwise (fun a b => starKey b ≤ starKey a) ∧
    ∀ s : Nat, (rankRepos l n).filter (fun r => starKey r == s)
      <+: l.filter (fun r => starKey r == s) := by
  refine ⟨?_, ?_, ?_⟩
  · simp [rankRepos]
  · exact (pairwise_sortStarsDesc l).sublist (List.take_sublist n _)
  · intro s
    have h1 : rankRepos l n <+: sortStarsDesc l := List.take_prefix n _
    have h2 := h1.filter (fun r => starKey r == s)
    rwa [filter_sortStarsDesc] at h2

/-! ## The repository fetcher (`get_top_starred_repos`, lines 13–59) -/

/-- Python truthiness of an optional string: `None` and `''` are falsy. -/
def pyTruthy : Option String → Bool
  | none => false
  | some s => s != ""

/-- Model of the pagination loop (lines 37–55).  The network is an oracle
listing the successive responses `(status_code, body)` the loop would
receive.  The loop stops on a non-200 status (returning what has been
accumulated, line 41–43), on an empty page (line 46), or after a short
page of fewer than `per_page = 100` entries (line 52). -/
def fetchPages : List (Nat × List Repo) → List Repo
  | [] => []
  | (status, body) :: rest =>
    if status ≠ 200 then []
    else if body = [] then []
    else if body.length < 100 then body
    else body ++ fetchPages rest

/-- Model of `get_top_starred_repos(username, limit)`.  Lines 24–30: when
no (truthy) username is given, a token is required, otherwise the call
raises `ValueError` before the pagination loop runs (no network request
depends on `net`).  Lines 37–59: otherwise page through `net`, sort by
stars descending and truncate to `limit`. -/
def get_top_starred_repos (token username : Option String)
    (net : List (Nat × List Repo)) (limit : Nat) : Except String (List Repo) :=
  if pyTruthy username then
    .ok (rankRepos (fetchPages net) limit)
  else if token.isNone then
    .error "GITHUB_TOKEN is required when username is not provided"
  else
    .ok (rankRepos (fetchPages net) limit)

theorem fetchPages_cons (status : Nat) (body : List Repo)
    (rest : List (Nat × List Repo)) :
    fetchPages ((status, body) :: rest)
      = if status ≠ 200 then []
        else if body = [] then []
        else if body.length < 100 then body
        else body ++ fetchPages rest := rfl

theorem fetchPages_stops_on_error (pages : List (List Repo)) (status : Nat)
    (body : List Repo) (rest : List (Nat × List Repo))
    (hfull : ∀ p ∈ pages, p.length = 100) (hstatus : status ≠ 200) :
    fetchPages (pages.map (fun p => (200, p)) ++ (status, body) :: rest)
      = pages.flatten := by
  induction pages with
  | nil => simp [fetchPages_cons, hstatus]
  | cons p ps ih =>
    have hp : p.length = 100 := hfull p (by simp)
    have hne : p ≠ [] := by
      intro h
      rw [h] at hp
      simp at hp
    have hlt : ¬ p.length < 100 := by omega
    have ih' := ih (fun q hq => hfull q (by simp [hq]))
    rw [List.map_cons, List.cons_append, fetchPages_cons,
      if_neg (by simp), if_neg hne, if_neg hlt, ih']
    simp

/-- C5: when some page request returns a non-success HTTP status after a
sequence of full (100-entry) successful pages, the fetch stops paging
there and returns the entries accumulated from the earlier pages, sorted
and truncated as usual, rather than failing. -/
theorem C5_partial_results_on_http_error (token username : Option String)
    (pages : List (List Repo)) (status : Nat) (body : List Repo)
    (rest : List (Nat × List Repo)) (limit : Nat)
    (hfull : ∀ p ∈ pages, p.length = 100) (hstatus : status ≠ 200)
    (hauth : pyTruthy username = true ∨ token.isSome = true) :
    get_top_starred_repos token username
        (pages.map (fun p => (200, p)) ++ (status, body) :: rest) limit
      = .ok (rankRepos pages.flatten limit) := by
  have hfp := fetchPages_stops_on_error pages status body rest hfull hstatus
  rcases hauth with h | h
  · simp [get_top_starred_repos, h, hfp]
  · rcases Option.isSome_iff_exists.mp h with ⟨t, rfl⟩
    by_cases hu : pyTruthy username <;> simp [get_top_starred_repos, hu, hfp]

/-- A concrete repository entry used by several witnesses. -/
def sampleRepo : Repo := ⟨some "r", some "u", some 1, some "o"⟩

theorem C5_witness :
    (∀ p ∈ [List.replicate 100 sampleRepo], p.length = 100) ∧ (500 : Nat) ≠ 200 ∧
    get_top_starred_repos none (some "alice")
        ([List.replicate 100 sampleRepo].map (fun p => (200, p)) ++ (500, []) :: []) 6
      = .ok (rankRepos [List.replicate 100 sampleRepo].flatten 6) :=
  ⟨by decide, by decide,
    C5_partial_results_on_http_error none (some "alice") _ 500 [] [] 6
      (by decide) (by decide) (Or.inl (by decide))⟩

/-- C8: when no account name is supplied (absent or empty, Python
truthiness) and no credential is available, the fetch fails with the
authentication error, independently of the network oracle — i.e. before
any network request. -/
theorem C8_auth_required (username : Option String)
    (hu : pyTruthy username = false) :
    ∀ (net : List (Nat × List Repo)) (limit : Nat),
      get_top_starred_repos none username net limit
        = .error "GITHUB_TOKEN is required when username is not provided" := by
  intro net limit
  simp [get_top_starred_repos, hu]

theorem C8_witness :
    pyTruthy none = false ∧
    get_top_starred_repos none none [(200, [⟨some "r", some "u", some 1, some "o"⟩])] 6
      = .error "GITHUB_TOKEN is required when username is not provided" :=
  ⟨by decide, C8_auth_required none (by decide) _ 6⟩

/-! ## Card construction (lines 106–115) -/

/-- Python's `str.replace(old, new)` restricted to a single-character
`old`, on character lists. -/
def pyReplaceChar (t : Char) (r : List Char) : List Char → List Char
  | [] => []
  | c :: cs => if c = t then r ++ pyReplaceChar t r cs else c :: pyReplaceChar t r cs

/-- Line 114: `repo_name.replace('[', '\\[').replace(']', '\\]')`. -/
def escapeAlt (s : List Char) : List Char :=
  pyReplaceChar ']' ['\\', ']'] (pyReplaceChar '[' ['\\', '['] s)

/-- The escaping described by the spec: every `[` and `]` of the display
text is preceded by a backslash, every other character is unchanged. -/
def escapeSpec (s : List Char) : List Char :=
  s.flatMap fun c => if c = '[' ∨ c = ']' then ['\\', c] else [c]

/-- Line 111: the stats-card URL (the computed `cache_date` of line 94 is
never interpolated into it). -/
def statsUrl (username name : List Char) : List Char :=
  "https://github-readme-stats.vercel.app/api/pin/?username=".toList ++ username
    ++ "&repo=".toList ++ name ++ "&theme=dark&hide_border=true".toList

/-- The markdown image-link card shape `[![alt](img)](target)` shared by
the generated snippet (line 115) and the regex pattern (line 120). -/
def cardShape (alt img target : List Char) : List Char :=
  "[![".toList ++ alt ++ "](".toList ++ img ++ ")](".toList ++ target ++ ")".toList

/-- Line 115: `[![{alt_text}]({stats_url})]({repo_url})`. -/
def buildCard (username name url : List Char) : List Char :=
  cardShape (escapeAlt name) (statsUrl username name) url

theorem escapeAlt_eq_escapeSpec (s : List Char) : escapeAlt s = escapeSpec s := by
  induction s with
  | nil => rfl
  | cons c cs ih =>
    by_cases h1 : c = '['
    · subst h1
      simp [escapeAlt, pyReplaceChar, escapeSpec] at ih ⊢
      exact ih
    · by_cases h2 : c = ']'
      · subst h2
        simp [escapeAlt, pyReplaceChar, escapeSpec] at ih ⊢
        exact ih
      · simp [escapeAlt, pyReplaceChar, escapeSpec, h1, h2] at ih ⊢
        exact ih

/-- C9: the generated card's display (alt) text is the repository name
with every `[` and `]` escaped with a backslash; in particular `[test]`
yields `\[test\]`, and the generated card is the markdown image link
whose display text is the escaped name. -/
theorem C9_alt_text_escaped (name : List Char) :
    escapeAlt name = escapeSpec name ∧
    escapeAlt "[test]".toList = "\\[test\\]".toList ∧
    ∀ u url, buildCard u name url
      = "[![".toList ++ escapeSpec name ++ "](".toList ++ statsUrl u name
          ++ ")](".toList ++ url ++ ")".toList := by
  refine ⟨escapeAlt_eq_escapeSpec name, by decide, ?_⟩
  intro u url
  rw [buildCard, cardShape, escapeAlt_eq_escapeSpec]

/-! ## The regex substitution engine (lines 117–129)

The pattern built on line 120,
`(<!-- REPO_{i}_START -->)[\s\S]*?\[!\[.*?\]\(.*?\)\]\(.*?\)[\s\S]*?(<!-- REPO_{i}_END -->)`,
is a sequence of literals and lazy gaps: `[\s\S]*?` matches any character
and `.*?` any character except a newline, both preferring the shortest
extension that lets the rest of the pattern match (backtracking
priority).  `re.sub` scans left to right and replaces every
non-overlapping leftmost match; the replacement template of line 121
expands to the literal begin marker, a newline, the card, a newline and
the literal end marker (both groups are the literal marker tokens).

`mlen` is a fuel-indexed backtracking matcher for such patterns,
returning the length of the match starting at the head of the string;
`s.length + ps.length` strictly decreases at every recursive call, so any
larger fuel computes the match.  `subAll` is `re.sub` with a constant
replacement string. -/

inductive Pat where
  | lit (l : List Char)
  | lazyAny
  | lazyNoNL
deriving DecidableEq, Repr

def mlen : Nat → List Pat → List Char → Option Nat
  | 0, _, _ => none
  | _ + 1, [], _ => some 0
  | f + 1, .lit l :: ps, s =>
    if l.isPrefixOf s then (mlen f ps (s.drop l.length)).map (· + l.length) else none
  | f + 1, .lazyAny :: ps, s =>
    match mlen f ps s with
    | some n => some n
    | none =>
      match s with
      | [] => none
      | _ :: s' => (mlen f (.lazyAny :: ps) s').map (· + 1)
  | f + 1, .lazyNoNL :: ps, s =>
    match mlen f ps s with
    | some n => some n
    | none =>
      match s with
      | [] => none
      | c :: s' => if c = '\n' then none else (mlen f (.lazyNoNL :: ps) s').map (· + 1)

/-- The match length of pattern `ps` at the start of `s`, with adequate fuel. -/
def matchLen (ps : List Pat) (s : List Char) : Option Nat :=
  mlen (s.length + ps.length + 1) ps s

theorem mlen_congr (f : Nat) : ∀ (g : Nat) (ps : List Pat) (s : List Char),
    s.length + ps.length < f → s.length + ps.length < g →
    mlen f ps s = mlen g ps s := by
  induction f using Nat.strong_induction_on with
  | _ f ihf =>
    intro g ps s hf hg
    obtain ⟨f', rfl⟩ : ∃ f', f = f' + 1 := ⟨f - 1, by omega⟩
    obtain ⟨g', rfl⟩ : ∃ g', g = g' + 1 := ⟨g - 1, by omega⟩
    cases ps with
    | nil => rfl
    | cons p ps =>
      simp only [List.length_cons] at hf hg
      cases p with
      | lit l =>
        show (if l.isPrefixOf s then (mlen f' ps (s.drop l.length)).map (· + l.length)
            else none)
          = if l.isPrefixOf s then (mlen g' ps (s.drop l.length)).map (· + l.length)
            else none
        by_cases hp : l.isPrefixOf s
        · rw [if_pos hp, if_pos hp,
            ihf f' (by omega) g' ps (s.drop l.length)
              (by simp [List.length_drop]; omega) (by simp [List.length_drop]; omega)]
        · rw [if_neg hp, if_neg hp]
      | lazyAny =>
        cases s with
        | nil =>
          show (match mlen f' ps [] with
              | some n => some n
              | none => none)
            = (match mlen g' ps [] with
              | some n => some n
              | none => none)
          rw [ihf f' (by omega) g' ps [] (by simp at hf ⊢; omega)
            (by simp at hg ⊢; omega)]
        | cons c s' =>
          simp only [List.length_cons] at hf hg
          show (match mlen f' ps (c :: s') with
              | some n => some n
              | none => (mlen f' (.lazyAny :: ps) s').map (· + 1))
            = (match mlen g' ps (c :: s') with
              | some n => some n
              | none => (mlen g' (.lazyAny :: ps) s').map (· + 1))
          rw [ihf f' (by omega) g' ps (c :: s') (by simp; omega) (by simp; omega)]
          cases mlen g' ps (c :: s') with
          | some n => rfl
          | none =>
            rw [ihf f' (by omega) g' (.lazyAny :: ps) s'
              (by simp; omega) (by simp; omega)]
      | lazyNoNL =>
        cases s with
        | nil =>
          show (match mlen f' ps [] with
              | some n => some n
              | none => none)
            = (match mlen g' ps [] with
              | some n => some n
              | none => none)
          rw [ihf f' (by omega) g' ps [] (by simp at hf ⊢; omega)
            (by simp at hg ⊢; omega)]
        | cons c s' =>
          simp only [List.length_cons] at hf hg
          show (match mlen f' ps (c :: s') with
              | some n => some n
              | none => if c = '\n' then none
                else (mlen f' (.lazyNoNL :: ps) s').map (· + 1))
            = (match mlen g' ps (c :: s') with
              | some n => some n
              | none => if c = '\n' then none
                else (mlen g' (.lazyNoNL :: ps) s').map (· + 1))
          rw [ihf f' (by omega) g' ps (c :: s') (by simp; omega) (by simp; omega)]
          cases mlen g' ps (c :: s') with
          | some n => rfl
          | none =>
            by_cases hc : c = '\n'
            · rw [if_pos hc, if_pos hc]
            · rw [if_neg hc, if_neg hc,
                ihf f' (by omega) g' (.lazyNoNL :: ps) s'
                  (by simp; omega) (by simp; omega)]

theorem mlen_eq_matchLen {f : Nat} (ps : List Pat) (s : List Char)
    (h : s.length + ps.length < f) : mlen f ps s = matchLen ps s :=
  mlen_congr f (s.length + ps.length + 1) ps s h (by omega)

theorem mlen_le (f : Nat) : ∀ (ps : List Pat) (s : List Char) (n : Nat),
    mlen f ps s = some n → n ≤ s.length := by
  induction f using Nat.strong_induction_on with
  | _ f ihf =>
    intro ps s n h
    obtain ⟨f', rfl⟩ : ∃ f', f = f' + 1 := by
      cases f with
      | zero => simp [mlen] at h
      | succ f' => exact ⟨f', rfl⟩
    cases ps with
    | nil =>
      simp only [mlen, Option.some.injEq] at h
      omega
    | cons p ps =>
      cases p with
      | lit l =>
        rw [show mlen (f' + 1) (.lit l :: ps) s
            = if l.isPrefixOf s then (mlen f' ps (s.drop l.length)).map (· + l.length)
              else none from rfl] at h
        by_cases hp : l.isPrefixOf s
        · rw [if_pos hp, Option.map_eq_some'] at h
          obtain ⟨m, hm, rfl⟩ := h
          have h1 := ihf f' (by omega) ps (s.drop l.length) m hm
          have h2 : l.length ≤ s.length :=
            (List.isPrefixOf_iff_prefix.mp hp).length_le
          simp [List.length_drop] at h1
          omega
        · rw [if_neg hp] at h
          exact absurd h (by simp)
      | lazyAny =>
        cases s with
        | nil =>
          rw [show mlen (f' + 1) (.lazyAny :: ps) []
              = (match mlen f' ps [] with
                | some n => some n
                | none => none) from rfl] at h
          cases hm : mlen f' ps [] with
          | some m =>
            rw [hm] at h
            cases h
            exact ihf f' (by omega) ps [] n hm
          | none =>
            rw [hm] at h
            exact absurd h (by simp)
        | cons c s' =>
          rw [show mlen (f' + 1) (.lazyAny :: ps) (c :: s')
              = (match mlen f' ps (c :: s') with
                | some n => some n
                | none => (mlen f' (.lazyAny :: ps) s').map (· + 1)) from rfl] at h
          cases hm : mlen f' ps (c :: s') with
          | some m =>
            rw [hm] at h
            cases h
            exact ihf f' (by omega) ps (c :: s') n hm
          | none =>
            rw [hm, Option.map_eq_some'] at h
            obtain ⟨m, hm', rfl⟩ := h
            have := ihf f' (by omega) (.lazyAny :: ps) s' m hm'
            simp
            omega
      | lazyNoNL =>
        cases s with
        | nil =>
          rw [show mlen (f' + 1) (.lazyNoNL :: ps) []
              = (match mlen f' ps [] with
                | some n => some n
                | none => none) from rfl] at h
          cases hm : mlen f' ps [] with
          | some m =>
            rw [hm] at h
            cases h
            exact ihf f' (by omega) ps [] n hm
          | none =>
            rw [hm] at h
            exact absurd h (by simp)
        | cons c s' =>
          rw [show mlen (f' + 1) (.lazyNoNL :: ps) (c :: s')
              = (match mlen f' ps (c :: s') with
                | some n => some n
                | none => if c = '\n' then none
                  else (mlen f' (.lazyNoNL :: ps) s').map (· + 1)) from rfl] at h
          cases hm : mlen f' ps (c :: s') with
          | some m =>
            rw [hm] at h
            cases h
            exact ihf f' (by omega) ps (c :: s') n hm
          | none =>
            rw [hm] at h
            by_cases hc : c = '\n'
            · rw [if_pos hc] at h
              exact absurd h (by simp)
            · rw [if_neg hc, Option.map_eq_some'] at h
              obtain ⟨m, hm', rfl⟩ := h
              have := ihf f' (by omega) (.lazyNoNL :: ps) s' m hm'
              simp
              omega

theorem matchLen_le {ps : List Pat} {s : List Char} {n : Nat}
    (h : matchLen ps s = some n) : n ≤ s.length :=
  mlen_le _ ps s n h

theorem matchLen_lit (l : List Char) (ps : List Pat) (s : List Char) :
    matchLen (.lit l :: ps) s
      = if l.isPrefixOf s then (matchLen ps (s.drop l.length)).map (· + l.length)
        else none := by
  rw [matchLen,
    show mlen (s.length + (Pat.lit l :: ps).length + 1) (.lit l :: ps) s
      = if l.isPrefixOf s then
          (mlen (s.length + (Pat.lit l :: ps).length) ps (s.drop l.length)).map
            (· + l.length)
        else none from rfl]
  by_cases hp : l.isPrefixOf s
  · rw [if_pos hp, if_pos hp,
      mlen_eq_matchLen ps (s.drop l.length) (by simp [List.length_drop]; omega)]
  · rw [if_neg hp, if_neg hp]

theorem matchLen_lit_neg {l : List Char} {s : List Char} (ps : List Pat)
    (h : ¬ l.isPrefixOf s = true) : matchLen (.lit l :: ps) s = none := by
  rw [matchLen_lit, if_neg h]

theorem matchLen_lazyAny_found {ps : List Pat} {s : List Char} {n : Nat}
    (h : matchLen ps s = some n) : matchLen (.lazyAny :: ps) s = some n := by
  cases s with
  | nil =>
    rw [matchLen,
      show mlen ([].length + (Pat.lazyAny :: ps).length + 1) (.lazyAny :: ps) []
        = (match mlen ([].length + (Pat.lazyAny :: ps).length) ps [] with
          | some n => some n
          | none => none) from rfl,
      mlen_eq_matchLen ps [] (by simp), h]
  | cons c s' =>
    rw [matchLen,
      show mlen ((c :: s').length + (Pat.lazyAny :: ps).length + 1) (.lazyAny :: ps) (c :: s')
        = (match mlen ((c :: s').length + (Pat.lazyAny :: ps).length) ps (c :: s') with
          | some n => some n
          | none =>
            (mlen ((c :: s').length + (Pat.lazyAny :: ps).length) (.lazyAny :: ps) s').map
              (· + 1)) from rfl,
      mlen_eq_matchLen ps (c :: s') (by simp only [List.length_cons, List.length_nil]; omega), h]

theorem matchLen_lazyNoNL_found {ps : List Pat} {s : List Char} {n : Nat}
    (h : matchLen ps s = some n) : matchLen (.lazyNoNL :: ps) s = some n := by
  cases s with
  | nil =>
    rw [matchLen,
      show mlen ([].length + (Pat.lazyNoNL :: ps).length + 1) (.lazyNoNL :: ps) []
        = (match mlen ([].length + (Pat.lazyNoNL :: ps).length) ps [] with
          | some n => some n
          | none => none) from rfl,
      mlen_eq_matchLen ps [] (by simp), h]
  | cons c s' =>
    rw [matchLen,
      show mlen ((c :: s').length + (Pat.lazyNoNL :: ps).length + 1) (.lazyNoNL :: ps) (c :: s')
        = (match mlen ((c :: s').length + (Pat.lazyNoNL :: ps).length) ps (c :: s') with
          | some n => some n
          | none => if c = '\n' then none
            else (mlen ((c :: s').length + (Pat.lazyNoNL :: ps).length) (.lazyNoNL :: ps) s').map
              (· + 1)) from rfl,
      mlen_eq_matchLen ps (c :: s') (by simp only [List.length_cons, List.length_nil]; omega), h]

theorem matchLen_lazyAny_step {ps : List Pat} {c : Char} {s' : List Char}
    (h : matchLen ps (c :: s') = none) :
    matchLen (.lazyAny :: ps) (c :: s')
      = (matchLen (.lazyAny :: ps) s').map (· + 1) := by
  rw [matchLen,
    show mlen ((c :: s').length + (Pat.lazyAny :: ps).length + 1) (.lazyAny :: ps) (c :: s')
      = (match mlen ((c :: s').length + (Pat.lazyAny :: ps).length) ps (c :: s') with
        | some n => some n
        | none =>
          (mlen ((c :: s').length + (Pat.lazyAny :: ps).length) (.lazyAny :: ps) s').map
            (· + 1)) from rfl,
    mlen_eq_matchLen ps (c :: s') (by simp only [List.length_cons, List.length_nil]; omega), h]
  rw [mlen_eq_matchLen (.lazyAny :: ps) s' (by simp only [List.length_cons, List.length_nil]; omega)]

theorem matchLen_lazyNoNL_step {ps : List Pat} {c : Char} {s' : List Char}
    (hc : ¬ c = '\n') (h : matchLen ps (c :: s') = none) :
    matchLen (.lazyNoNL :: ps) (c :: s')
      = (matchLen (.lazyNoNL :: ps) s').map (· + 1) := by
  rw [matchLen,
    show mlen ((c :: s').length + (Pat.lazyNoNL :: ps).length + 1) (.lazyNoNL :: ps) (c :: s')
      = (match mlen ((c :: s').length + (Pat.lazyNoNL :: ps).length) ps (c :: s') with
        | some n => some n
        | none => if c = '\n' then none
          else (mlen ((c :: s').length + (Pat.lazyNoNL :: ps).length) (.lazyNoNL :: ps) s').map
            (· + 1)) from rfl,
    mlen_eq_matchLen ps (c :: s') (by simp only [List.length_cons, List.length_nil]; omega), h]
  rw [if_neg hc, mlen_eq_matchLen (.lazyNoNL :: ps) s' (by simp only [List.length_cons, List.length_nil]; omega)]

theorem matchLen_lazyNoNL_newline {ps : List Pat} {s' : List Char}
    (h : matchLen ps ('\n' :: s') = none) :
    matchLen (.lazyNoNL :: ps) ('\n' :: s') = none := by
  rw [matchLen,
    show mlen (('\n' :: s').length + (Pat.lazyNoNL :: ps).length + 1) (.lazyNoNL :: ps)
          ('\n' :: s')
      = (match mlen (('\n' :: s').length + (Pat.lazyNoNL :: ps).length) ps ('\n' :: s') with
        | some n => some n
        | none => if '\n' = '\n' then none
          else (mlen (('\n' :: s').length + (Pat.lazyNoNL :: ps).length) (.lazyNoNL :: ps)
              s').map (· + 1)) from rfl,
    mlen_eq_matchLen ps ('\n' :: s') (by simp only [List.length_cons, List.length_nil]; omega), h, if_pos rfl]

theorem matchLen_lazyAny_nil {ps : List Pat} (h : matchLen ps [] = none) :
    matchLen (.lazyAny :: ps) [] = none := by
  rw [matchLen,
    show mlen ([].length + (Pat.lazyAny :: ps).length + 1) (.lazyAny :: ps) []
      = (match mlen ([].length + (Pat.lazyAny :: ps).length) ps [] with
        | some n => some n
        | none => none) from rfl,
    mlen_eq_matchLen ps [] (by simp), h]

theorem matchLen_lazyNoNL_nil {ps : List Pat} (h : matchLen ps [] = none) :
    matchLen (.lazyNoNL :: ps) [] = none := by
  rw [matchLen,
    show mlen ([].length + (Pat.lazyNoNL :: ps).length + 1) (.lazyNoNL :: ps) []
      = (match mlen ([].length + (Pat.lazyNoNL :: ps).length) ps [] with
        | some n => some n
        | none => none) from rfl,
    mlen_eq_matchLen ps [] (by simp), h]

/-- `re.sub` with a constant replacement: scan left to right; at a match
of length `n` (always ≥ 1 for the patterns of the script, which start
with a non-empty literal) emit the replacement and continue after the
match, otherwise emit the scanned character. -/
def subFuel : Nat → List Pat → List Char → List Char → List Char
  | 0, _, _, _ => []
  | _ + 1, _, _, [] => []
  | f + 1, ps, r, c :: s' =>
    match matchLen ps (c :: s') with
    | some n => r ++ subFuel f ps r (s'.drop (n - 1))
    | none => c :: subFuel f ps r s'

def subAll (ps : List Pat) (r s : List Char) : List Char := subFuel s.length ps r s

theorem subFuel_congr (f : Nat) : ∀ (g : Nat) (ps : List Pat) (r s : List Char),
    s.length ≤ f → s.length ≤ g → subFuel f ps r s = subFuel g ps r s := by
  induction f using Nat.strong_induction_on with
  | _ f ihf =>
    intro g ps r s hf hg
    cases s with
    | nil =>
      cases f <;> cases g <;> rfl
    | cons c s' =>
      simp only [List.length_cons] at hf hg
      obtain ⟨f', rfl⟩ : ∃ f', f = f' + 1 := ⟨f - 1, by omega⟩
      obtain ⟨g', rfl⟩ : ∃ g', g = g' + 1 := ⟨g - 1, by omega⟩
      show (match matchLen ps (c :: s') with
          | some n => r ++ subFuel f' ps r (s'.drop (n - 1))
          | none => c :: subFuel f' ps r s')
        = (match matchLen ps (c :: s') with
          | some n => r ++ subFuel g' ps r (s'.drop (n - 1))
          | none => c :: subFuel g' ps r s')
      cases matchLen ps (c :: s') with
      | some n =>
        show r ++ subFuel f' ps r (s'.drop (n - 1)) = r ++ subFuel g' ps r (s'.drop (n - 1))
        rw [ihf f' (by omega) g' ps r (s'.drop (n - 1))
          (by simp only [List.length_drop]; omega) (by simp only [List.length_drop]; omega)]
      | none =>
        show c :: subFuel f' ps r s' = c :: subFuel g' ps r s'
        rw [ihf f' (by omega) g' ps r s' (by omega) (by omega)]

theorem subAll_nil (ps : List Pat) (r : List Char) : subAll ps r [] = [] := rfl

theorem subAll_cons_none {ps : List Pat} {c : Char} {s' : List Char} (r : List Char)
    (h : matchLen ps (c :: s') = none) :
    subAll ps r (c :: s') = c :: subAll ps r s' := by
  rw [subAll,
    show subFuel (c :: s').length ps r (c :: s')
      = (match matchLen ps (c :: s') with
        | some n => r ++ subFuel s'.length ps r (s'.drop (n - 1))
        | none => c :: subFuel s'.length ps r s') from rfl,
    h]
  rfl

theorem subAll_cons_some {ps : List Pat} {c : Char} {s' : List Char} {n : Nat}
    (r : List Char) (h : matchLen ps (c :: s') = some n) (hn : 1 ≤ n) :
    subAll ps r (c :: s') = r ++ subAll ps r ((c :: s').drop n) := by
  obtain ⟨m, rfl⟩ : ∃ m, n = m + 1 := ⟨n - 1, by omega⟩
  rw [subAll,
    show subFuel (c :: s').length ps r (c :: s')
      = (match matchLen ps (c :: s') with
        | some n => r ++ subFuel s'.length ps r (s'.drop (n - 1))
        | none => c :: subFuel s'.length ps r s') from rfl,
    h]
  simp only [Nat.add_sub_cancel, List.drop_succ_cons, subAll]
  rw [subFuel_congr s'.length (s'.drop m).length ps r (s'.drop m)
    (by simp [List.length_drop]) (by rfl)]

theorem subAll_match {ps : List Pat} {s : List Char} {n : Nat} (r : List Char)
    (h : matchLen ps s = some n) (hn : 1 ≤ n) :
    subAll ps r s = r ++ subAll ps r (s.drop n) := by
  cases s with
  | nil =>
    have := matchLen_le h
    simp at this
    omega
  | cons c s' => exact subAll_cons_some r h hn

/-! ## Lazy-gap and scanning lemmas -/

theorem matchLen_nil (s : List Char) : matchLen [] s = some 0 := rfl

theorem matchLen_lit_cons (l t : List Char) (ps : List Pat) :
    matchLen (.lit l :: ps) (l ++ t) = (matchLen ps t).map (· + l.length) := by
  rw [matchLen_lit, if_pos (List.isPrefixOf_iff_prefix.mpr (List.prefix_append l t)),
    List.drop_left]

/-- A lazy `[\s\S]*?` gap absorbs `u` when the rest of the pattern fails
at every position inside `u` and succeeds right after it. -/
theorem matchLen_lazyAny_skip {ps : List Pat} {n : Nat} (u v : List Char)
    (hu : ∀ w, w <:+ u → w ≠ [] → matchLen ps (w ++ v) = none)
    (hv : matchLen ps v = some n) :
    matchLen (.lazyAny :: ps) (u ++ v) = some (u.length + n) := by
  induction u with
  | nil => simpa using matchLen_lazyAny_found hv
  | cons d u' ih =>
    have h1 : matchLen ps (d :: (u' ++ v)) = none := by
      have := hu (d :: u') List.suffix_rfl (by simp)
      rwa [List.cons_append] at this
    rw [List.cons_append, matchLen_lazyAny_step h1,
      ih (fun w hw hne => hu w (hw.trans (List.suffix_cons d u')) hne)]
    simp only [Option.map_some', List.length_cons, Option.some.injEq]
    omega

/-- A lazy `.*?` gap absorbs the newline-free `u` when the rest of the
pattern fails at every position inside `u` and succeeds right after it. -/
theorem matchLen_lazyNoNL_skip {ps : List Pat} {n : Nat} (u v : List Char)
    (hnl : ∀ ch ∈ u, ch ≠ '\n')
    (hu : ∀ w, w <:+ u → w ≠ [] → matchLen ps (w ++ v) = none)
    (hv : matchLen ps v = some n) :
    matchLen (.lazyNoNL :: ps) (u ++ v) = some (u.length + n) := by
  induction u with
  | nil => simpa using matchLen_lazyNoNL_found hv
  | cons d u' ih =>
    have h1 : matchLen ps (d :: (u' ++ v)) = none := by
      have := hu (d :: u') List.suffix_rfl (by simp)
      rwa [List.cons_append] at this
    rw [List.cons_append, matchLen_lazyNoNL_step (hnl d (by simp)) h1,
      ih (fun ch hch => hnl ch (by simp [hch]))
        (fun w hw hne => hu w (hw.trans (List.suffix_cons d u')) hne)]
    simp only [Option.map_some', List.length_cons, Option.some.injEq]
    omega

theorem matchLen_lit_head_ne {c0 d : Char} {lt wt v : List Char} (ps : List Pat)
    (h : c0 ≠ d) :
    matchLen (.lit (c0 :: lt) :: ps) ((d :: wt) ++ v) = none := by
  apply matchLen_lit_neg
  rw [List.cons_append]
  show ¬ ((c0 :: lt).isPrefixOf (d :: (wt ++ v))) = true
  simp only [List.isPrefixOf, Bool.and_eq_true, beq_iff_eq]
  rintro ⟨rfl, -⟩
  exact h rfl

/-- The skip obligation of the lazy-gap lemmas, discharged by a character
class: the continuation starts with a literal whose first character does
not occur in `u`. -/
theorem skipObligation {c0 : Char} {lt : List Char} (ps : List Pat) {u : List Char}
    (hchar : ∀ ch ∈ u, ch ≠ c0) :
    ∀ w, w <:+ u → w ≠ [] → ∀ v, matchLen (.lit (c0 :: lt) :: ps) (w ++ v) = none := by
  intro w hw hne v
  match w, hne with
  | wh :: wt, _ =>
    have hm : wh ∈ u := hw.sublist.subset (by simp)
    exact matchLen_lit_head_ne ps (fun he => hchar wh hm he.symm)

/-! ## `re.sub` scanning lemmas -/

theorem subAll_append_of_none (ps : List Pat) (r x y : List Char)
    (h : ∀ w, w <:+ x → w ≠ [] → matchLen ps (w ++ y) = none) :
    subAll ps r (x ++ y) = x ++ subAll ps r y := by
  induction x with
  | nil => simp
  | cons d x' ih =>
    have h1 : matchLen ps (d :: (x' ++ y)) = none := by
      have := h (d :: x') List.suffix_rfl (by simp)
      rwa [List.cons_append] at this
    rw [List.cons_append, subAll_cons_none r h1,
      ih (fun w hw hne => h w (hw.trans (List.suffix_cons d x')) hne),
      List.cons_append]

theorem subAll_of_no_match (ps : List Pat) (r s : List Char)
    (h : ∀ w, w <:+ s → w ≠ [] → matchLen ps w = none) :
    subAll ps r s = s := by
  induction s with
  | nil => rfl
  | cons d s' ih =>
    rw [subAll_cons_none r (h (d :: s') List.suffix_rfl (by simp)),
      ih (fun w hw hne => h w (hw.trans (List.suffix_cons d s')) hne)]

/-! ## Safe chunks

A chunk `x` is safe for a literal `l` when no nonempty suffix of `x` is
compatible with `l` (neither extends to an occurrence of `l` nor contains
one at its start): no occurrence of `l` can start inside `x`, whatever
text follows. -/

def chunkSafe (l x : List Char) : Bool :=
  x.tails.all fun w => w.isEmpty || (!(l.isPrefixOf w) && !(w.isPrefixOf l))

theorem chunkSafe_spec {l x : List Char} (h : chunkSafe l x = true) :
    ∀ w, w <:+ x → w ≠ [] → ¬ (l <+: w) ∧ ¬ (w <+: l) := by
  intro w hw hne
  have := List.all_eq_true.mp h w ((List.mem_tails w x).mpr hw)
  rcases Bool.or_eq_true_iff.mp this with h1 | h2
  · exact absurd (List.isEmpty_iff.mp h1) hne
  · obtain ⟨ha, hb⟩ := Bool.and_eq_true_iff.mp h2
    constructor
    · intro hc
      rw [← List.isPrefixOf_iff_prefix] at hc
      simp [hc] at ha
    · intro hc
      rw [← List.isPrefixOf_iff_prefix] at hc
      simp [hc] at hb

theorem chunkSafe_intro {l x : List Char}
    (h : ∀ w, w <:+ x → w ≠ [] → ¬ (l <+: w) ∧ ¬ (w <+: l)) :
    chunkSafe l x = true := by
  rw [chunkSafe, List.all_eq_true]
  intro w hw
  have hsuf := (List.mem_tails w x).mp hw
  by_cases hne : w = []
  · simp [hne]
  · obtain ⟨h1, h2⟩ := h w hsuf hne
    simp only [Bool.or_eq_true, Bool.and_eq_true, Bool.not_eq_true']
    right
    refine ⟨Bool.eq_false_iff.mpr ?_, Bool.eq_false_iff.mpr ?_⟩
    · intro hc
      exact h1 (List.isPrefixOf_iff_prefix.mp hc)
    · intro hc
      exact h2 (List.isPrefixOf_iff_prefix.mp hc)

/-- Characters-only criterion: if the head character of `l` occurs nowhere
in `x`, then `x` is a safe chunk for `l`. -/
theorem chunkSafe_of_head_notin {c0 : Char} {lt x : List Char}
    (h : ∀ ch ∈ x, ch ≠ c0) : chunkSafe (c0 :: lt) x = true := by
  apply chunkSafe_intro
  intro w hw hne
  match w, hne with
  | wh :: wt, _ =>
    have hm : wh ∈ x := hw.sublist.subset (by simp)
    constructor
    · intro hc
      rcases List.cons_prefix_cons.mp hc with ⟨he, -⟩
      exact h wh hm he.symm
    · intro hc
      rcases List.cons_prefix_cons.mp hc with ⟨he, -⟩
      exact h wh hm he

theorem suffix_append_cases {w x y : List Char} (h : w <:+ x ++ y) :
    w <:+ y ∨ ∃ w', w' <:+ x ∧ w = w' ++ y := by
  obtain ⟨p, hp⟩ := h
  rcases List.append_eq_append_iff.mp hp with ⟨a', ha1, ha2⟩ | ⟨c', hc1, hc2⟩
  · right
    exact ⟨a', ⟨p, ha1.symm⟩, ha2⟩
  · left
    exact ⟨c', hc2.symm⟩

theorem chunkSafe_append {l x y : List Char}
    (hx : chunkSafe l x = true) (hy : chunkSafe l y = true) :
    chunkSafe l (x ++ y) = true := by
  apply chunkSafe_intro
  intro w hw hne
  rcases suffix_append_cases hw with hs | ⟨w', hw', rfl⟩
  · exact chunkSafe_spec hy w hs hne
  · by_cases hne' : w' = []
    · subst hne'
      exact chunkSafe_spec hy y List.suffix_rfl (by simpa using hne)
    · obtain ⟨h1, h2⟩ := chunkSafe_spec hx w' hw' hne'
      constructor
      · intro hc
        by_cases hlen : l.length ≤ w'.length
        · exact h1 (List.prefix_of_prefix_length_le hc (List.prefix_append w' y) hlen)
        · exact h2 (List.prefix_of_prefix_length_le (List.prefix_append w' y) hc
            (by omega))
      · intro hc
        exact h2 ((List.prefix_append w' y).trans hc)

/-- No match of a pattern starting with literal `l` can start inside a
safe chunk for `l`, whatever follows the chunk. -/
theorem matchLen_none_of_chunkSafe {l : List Char} (ps : List Pat) {x : List Char}
    (hx : chunkSafe l x = true) :
    ∀ w, w <:+ x → w ≠ [] → ∀ y, matchLen (.lit l :: ps) (w ++ y) = none := by
  intro w hw hne y
  apply matchLen_lit_neg
  intro hp
  rw [List.isPrefixOf_iff_prefix] at hp
  obtain ⟨h1, h2⟩ := chunkSafe_spec hx w hw hne
  by_cases hlen : l.length ≤ w.length
  · exact h1 (List.prefix_of_prefix_length_le hp (List.prefix_append w y) hlen)
  · exact h2 (List.prefix_of_prefix_length_le (List.prefix_append w y) hp (by omega))

theorem subAll_skip_chunk {l : List Char} {ps : List Pat} (r : List Char)
    {x : List Char} (y : List Char) (hx : chunkSafe l x = true) :
    subAll (.lit l :: ps) r (x ++ y) = x ++ subAll (.lit l :: ps) r y :=
  subAll_append_of_none _ r x y
    (fun w hw hne => matchLen_none_of_chunkSafe ps hx w hw hne y)

theorem subAll_id_of_chunkSafe {l : List Char} {ps : List Pat} (r : List Char)
    {x : List Char} (hx : chunkSafe l x = true) :
    subAll (.lit l :: ps) r x = x := by
  apply subAll_of_no_match
  intro w hw hne
  have := matchLen_none_of_chunkSafe ps hx w hw hne []
  simpa using this

/-! ## Markers and the slot pattern (lines 75 and 120–121) -/

def markerStartTail (i : Nat) : List Char :=
  "!-- REPO_".toList ++ Nat.digitChar i :: "_START -->".toList

/-- `'<!-- REPO_' + str(i) + '_START -->'` for the single-digit slot
indices `1..6` produced by `enumerate(repos[:6], 1)` on line 98. -/
def markerStart (i : Nat) : List Char := '<' :: markerStartTail i

def markerEndTail (i : Nat) : List Char :=
  "!-- REPO_".toList ++ Nat.digitChar i :: "_END -->".toList

def markerEnd (i : Nat) : List Char := '<' :: markerEndTail i

def slotPatternTail (i : Nat) : List Pat :=
  [.lazyAny,
   .lit ('[' :: '!' :: '[' :: []), .lazyNoNL,
   .lit (']' :: '(' :: []), .lazyNoNL,
   .lit (')' :: ']' :: '(' :: []), .lazyNoNL,
   .lit (')' :: []),
   .lazyAny, .lit (markerEnd i)]

/-- The regex of line 120 as a literal / lazy-gap sequence:
`(START_i) [\s\S]*? \[!\[ .*? \]\( .*? \)\]\( .*? \) [\s\S]*? (END_i)`. -/
def slotPattern (i : Nat) : List Pat :=
  .lit (markerStart i) :: slotPatternTail i

theorem slotPattern_eq (i : Nat) :
    slotPattern i = .lit (markerStart i) :: slotPatternTail i := rfl

/-- The expansion of the replacement template `\1\n{card}\n\2` of
line 121: groups 1 and 2 capture exactly the literal marker tokens, and
the card is inserted literally.  `re.sub` processes the whole replacement
string as a template, expanding backslash escapes (`\1`, `\n`, `\g`, ...)
that occur inside the interpolated card as well, so this literal
insertion is exact only for cards whose interpolated strings (login,
name, URL) contain no backslash.  The `\[` and `\]` produced by the
alt-text escaping of line 114 are backslash escapes of non-alphanumeric
characters, which the template machinery keeps literally, so they are
covered.  Every theorem concluding with `replText` therefore restricts
the login, name and URL to backslash-free strings (`strClean` does, and
the amended C2 hypotheses do explicitly). -/
def replText (i : Nat) (card : List Char) : List Char :=
  markerStart i ++ '\n' :: (card ++ '\n' :: markerEnd i)

/-- A marker-delimited region whose inner content spans a card-shaped
placeholder: begin marker, gap `w1`, the card `[![a](b)](c)`, gap `w2`,
end marker. -/
def regionText (i : Nat) (w1 a b c w2 : List Char) : List Char :=
  markerStart i ++ w1 ++ cardShape a b c ++ w2 ++ markerEnd i

theorem toList_imgOpen : "[![".toList = ['[', '!', '['] := rfl

theorem toList_altClose : "](".toList = [']', '('] := rfl

theorem toList_imgClose : ")](".toList = [')', ']', '('] := rfl

theorem toList_paren : ")".toList = [')'] := rfl

/-- The central matching lemma: on a well-formed region whose components
avoid the delimiter characters the lazy gaps stop at (`w1` free of `[`,
the alt text free of `]` and newlines, the two URLs free of `)` and
newlines, `w2` free of `<`), the pattern for slot `i` matches exactly the
region, whatever text follows. -/
theorem regionText_match (i : Nat) (w1 a b c w2 rest : List Char)
    (hw1 : ∀ ch ∈ w1, ch ≠ '[')
    (ha1 : ∀ ch ∈ a, ch ≠ ']') (ha2 : ∀ ch ∈ a, ch ≠ '\n')
    (hb1 : ∀ ch ∈ b, ch ≠ ')') (hb2 : ∀ ch ∈ b, ch ≠ '\n')
    (hc1 : ∀ ch ∈ c, ch ≠ ')') (hc2 : ∀ ch ∈ c, ch ≠ '\n')
    (hw2 : ∀ ch ∈ w2, ch ≠ '<') :
    matchLen (slotPattern i) (regionText i w1 a b c w2 ++ rest)
      = some (regionText i w1 a b c w2).length := by
  have h11 : matchLen [.lit (markerEnd i)] (markerEnd i ++ rest)
      = some (markerEnd i).length := by
    rw [matchLen_lit_cons, matchLen_nil]
    simp
  have h10 : matchLen [.lazyAny, .lit (markerEnd i)]
        (w2 ++ (markerEnd i ++ rest))
      = some (w2.length + (markerEnd i).length) :=
    matchLen_lazyAny_skip w2 (markerEnd i ++ rest)
      (fun w hw hne => skipObligation [] hw2 w hw hne (markerEnd i ++ rest)) h11
  have h9 : matchLen (.lit (')' :: []) :: [.lazyAny, .lit (markerEnd i)])
        ((')' :: []) ++ (w2 ++ (markerEnd i ++ rest)))
      = some (w2.length + (markerEnd i).length + 1) := by
    rw [matchLen_lit_cons, h10]
    rfl
  have h8 : matchLen (.lazyNoNL :: .lit (')' :: []) :: [.lazyAny, .lit (markerEnd i)])
        (c ++ ((')' :: []) ++ (w2 ++ (markerEnd i ++ rest))))
      = some (c.length + (w2.length + (markerEnd i).length + 1)) :=
    matchLen_lazyNoNL_skip c _ hc2
      (fun w hw hne => skipObligation _ hc1 w hw hne _) h9
  have h7 : matchLen
        (.lit (')' :: ']' :: '(' :: [])
          :: .lazyNoNL :: .lit (')' :: []) :: [.lazyAny, .lit (markerEnd i)])
        ((')' :: ']' :: '(' :: [])
          ++ (c ++ ((')' :: []) ++ (w2 ++ (markerEnd i ++ rest)))))
      = some (c.length + (w2.length + (markerEnd i).length + 1) + 3) := by
    rw [matchLen_lit_cons, h8]
    rfl
  have h6 : matchLen
        (.lazyNoNL :: .lit (')' :: ']' :: '(' :: [])
          :: .lazyNoNL :: .lit (')' :: []) :: [.lazyAny, .lit (markerEnd i)])
        (b ++ ((')' :: ']' :: '(' :: [])
          ++ (c ++ ((')' :: []) ++ (w2 ++ (markerEnd i ++ rest))))))
      = some (b.length + (c.length + (w2.length + (markerEnd i).length + 1) + 3)) :=
    matchLen_lazyNoNL_skip b _ hb2
      (fun w hw hne => skipObligation _ hb1 w hw hne _) h7
  have h5 : matchLen
        (.lit (']' :: '(' :: [])
          :: .lazyNoNL :: .lit (')' :: ']' :: '(' :: [])
          :: .lazyNoNL :: .lit (')' :: []) :: [.lazyAny, .lit (markerEnd i)])
        ((']' :: '(' :: [])
          ++ (b ++ ((')' :: ']' :: '(' :: [])
            ++ (c ++ ((')' :: []) ++ (w2 ++ (markerEnd i ++ rest)))))))
      = some (b.length + (c.length + (w2.length + (markerEnd i).length + 1) + 3) + 2) := by
    rw [matchLen_lit_cons, h6]
    rfl
  have h4 : matchLen
        (.lazyNoNL :: .lit (']' :: '(' :: [])
          :: .lazyNoNL :: .lit (')' :: ']' :: '(' :: [])
          :: .lazyNoNL :: .lit (')' :: []) :: [.lazyAny, .lit (markerEnd i)])
        (a ++ ((']' :: '(' :: [])
          ++ (b ++ ((')' :: ']' :: '(' :: [])
            ++ (c ++ ((')' :: []) ++ (w2 ++ (markerEnd i ++ rest))))))))
      = some (a.length
          + (b.length + (c.length + (w2.length + (markerEnd i).length + 1) + 3) + 2)) :=
    matchLen_lazyNoNL_skip a _ ha2
      (fun w hw hne => skipObligation _ ha1 w hw hne _) h5
  have h3 : matchLen
        (.lit ('[' :: '!' :: '[' :: [])
          :: .lazyNoNL :: .lit (']' :: '(' :: [])
          :: .lazyNoNL :: .lit (')' :: ']' :: '(' :: [])
          :: .lazyNoNL :: .lit (')' :: []) :: [.lazyAny, .lit (markerEnd i)])
        (('[' :: '!' :: '[' :: [])
          ++ (a ++ ((']' :: '(' :: [])
            ++ (b ++ ((')' :: ']' :: '(' :: [])
              ++ (c ++ ((')' :: []) ++ (w2 ++ (markerEnd i ++ rest)))))))))
      = some (a.length
          + (b.length + (c.length + (w2.length + (markerEnd i).length + 1) + 3) + 2)
          + 3) := by
    rw [matchLen_lit_cons, h4]
    rfl
  have h2 : matchLen
        (.lazyAny :: .lit ('[' :: '!' :: '[' :: [])
          :: .lazyNoNL :: .lit (']' :: '(' :: [])
          :: .lazyNoNL :: .lit (')' :: ']' :: '(' :: [])
          :: .lazyNoNL :: .lit (')' :: []) :: [.lazyAny, .lit (markerEnd i)])
        (w1 ++ (('[' :: '!' :: '[' :: [])
          ++ (a ++ ((']' :: '(' :: [])
            ++ (b ++ ((')' :: ']' :: '(' :: [])
              ++ (c ++ ((')' :: []) ++ (w2 ++ (markerEnd i ++ rest))))))))))
      = some (w1.length
          + (a.length
            + (b.length + (c.length + (w2.length + (markerEnd i).length + 1) + 3) + 2)
            + 3)) :=
    matchLen_lazyAny_skip w1 _
      (fun w hw hne => skipObligation _ hw1 w hw hne _) h3
  have h1 := matchLen_lit_cons (markerStart i)
    (w1 ++ (('[' :: '!' :: '[' :: [])
      ++ (a ++ ((']' :: '(' :: [])
        ++ (b ++ ((')' :: ']' :: '(' :: [])
          ++ (c ++ ((')' :: []) ++ (w2 ++ (markerEnd i ++ rest))))))))))
    (.lazyAny :: .lit ('[' :: '!' :: '[' :: [])
      :: .lazyNoNL :: .lit (']' :: '(' :: [])
      :: .lazyNoNL :: .lit (')' :: ']' :: '(' :: [])
      :: .lazyNoNL :: .lit (')' :: []) :: [.lazyAny, .lit (markerEnd i)])
  rw [h2] at h1
  have hs : regionText i w1 a b c w2 ++ rest
      = markerStart i
        ++ (w1 ++ (('[' :: '!' :: '[' :: [])
          ++ (a ++ ((']' :: '(' :: [])
            ++ (b ++ ((')' :: ']' :: '(' :: [])
              ++ (c ++ ((')' :: []) ++ (w2 ++ (markerEnd i ++ rest)))))))))) := by
    simp [regionText, cardShape, toList_imgOpen, toList_altClose, toList_imgClose,
      toList_paren, List.append_assoc]
  have hp : slotPattern i
      = .lit (markerStart i)
        :: (.lazyAny :: .lit ('[' :: '!' :: '[' :: [])
          :: .lazyNoNL :: .lit (']' :: '(' :: [])
          :: .lazyNoNL :: .lit (')' :: ']' :: '(' :: [])
          :: .lazyNoNL :: .lit (')' :: []) :: [.lazyAny, .lit (markerEnd i)]) := rfl
  rw [hs, hp, h1]
  have hlen : (regionText i w1 a b c w2).length
      = w1.length
        + (a.length
          + (b.length + (c.length + (w2.length + (markerEnd i).length + 1) + 3) + 2)
          + 3)
        + (markerStart i).length := by
    simp [regionText, cardShape, toList_imgOpen, toList_altClose, toList_imgClose,
      toList_paren, List.length_append]
    omega
  rw [hlen]
  simp

/-! ## Structured documents

A document made of literal text and well-formed marker slots.  The
cleanliness conditions keep the marker tokens the only places an
occurrence of a marker can start, and keep the lazy gaps of the pattern
stopping at the card delimiters. -/

inductive Seg where
  | txt (t : List Char)
  | slot (idx : Nat) (w1 a b c w2 : List Char)
deriving DecidableEq, Repr

def Seg.render : Seg → List Char
  | .txt t => t
  | .slot i w1 a b c w2 => regionText i w1 a b c w2

def renderDoc (segs : List Seg) : List Char := (segs.map Seg.render).flatten

def Seg.idx : Seg → Option Nat
  | .txt _ => none
  | .slot i _ _ _ _ _ => some i

def Seg.clean : Seg → Prop
  | .txt t => ∀ ch ∈ t, ch ≠ '<'
  | .slot i w1 a b c w2 =>
      1 ≤ i ∧ i ≤ 6 ∧
      (∀ ch ∈ w1, ch ≠ '[' ∧ ch ≠ '<') ∧
      (∀ ch ∈ a, ch ≠ ']' ∧ ch ≠ '\n' ∧ ch ≠ '<') ∧
      (∀ ch ∈ b, ch ≠ ')' ∧ ch ≠ '\n' ∧ ch ≠ '<') ∧
      (∀ ch ∈ c, ch ≠ ')' ∧ ch ≠ '\n' ∧ ch ≠ '<') ∧
      (∀ ch ∈ w2, ch ≠ '<')

/-- A clean document: clean segments whose slot indices are pairwise
distinct. -/
def CleanDoc (segs : List Seg) : Prop :=
  (∀ g ∈ segs, g.clean) ∧ (segs.filterMap Seg.idx).Nodup

theorem renderDoc_nil : renderDoc [] = [] := rfl

theorem renderDoc_cons (g : Seg) (gs : List Seg) :
    renderDoc (g :: gs) = g.render ++ renderDoc gs := by
  simp [renderDoc]

/-- The marker compatibility facts for the six slot indices, by
computation: a begin marker for slot `i` neither starts inside nor
extends a begin marker of a different slot or any end marker. -/
theorem marker_decide_facts :
    ∀ i ∈ Finset.Icc 1 6, ∀ j ∈ Finset.Icc 1 6,
      (i ≠ j → chunkSafe (markerStart i) (markerStart j) = true) ∧
      chunkSafe (markerStart i) (markerEnd j) = true := by decide

theorem mem_Icc_of_bounds {i : Nat} (h1 : 1 ≤ i) (h2 : i ≤ 6) :
    i ∈ Finset.Icc 1 6 := Finset.mem_Icc.mpr ⟨h1, h2⟩

/-- A clean segment that is not slot `i` is a safe chunk for the slot-`i`
begin marker. -/
theorem chunkSafe_start_of_clean {i : Nat} (hi1 : 1 ≤ i) (hi2 : i ≤ 6)
    (g : Seg) (hg : g.clean) (hne : g.idx ≠ some i) :
    chunkSafe (markerStart i) g.render = true := by
  cases g with
  | txt t =>
    exact chunkSafe_of_head_notin hg
  | slot j w1 a b c w2 =>
    obtain ⟨hj1, hj2, hw1, ha, hb, hc, hw2⟩ := hg
    have hij : i ≠ j := by
      intro h
      exact hne (by simp [Seg.idx, h])
    have hfacts := marker_decide_facts i (mem_Icc_of_bounds hi1 hi2)
      j (mem_Icc_of_bounds hj1 hj2)
    show chunkSafe (markerStart i) (regionText j w1 a b c w2) = true
    rw [regionText]
    refine chunkSafe_append (chunkSafe_append (chunkSafe_append (chunkSafe_append
      (hfacts.1 hij) ?_) ?_) ?_) hfacts.2
    · exact chunkSafe_of_head_notin (fun ch hch => (hw1 ch hch).2)
    · apply chunkSafe_of_head_notin
      intro ch hch heq
      subst heq
      rw [cardShape] at hch
      simp only [List.mem_append] at hch
      rcases hch with ((((((h | h) | h) | h) | h) | h) | h)
      · exact absurd h (by decide)
      · exact (ha _ h).2.2 rfl
      · exact absurd h (by decide)
      · exact (hb _ h).2.2 rfl
      · exact absurd h (by decide)
      · exact (hc _ h).2.2 rfl
      · exact absurd h (by decide)
    · exact chunkSafe_of_head_notin hw2

/-- A document without slot `i` is left unchanged by the slot-`i`
substitution. -/
theorem subAll_renderDoc_no_slot {i : Nat} (hi1 : 1 ≤ i) (hi2 : i ≤ 6)
    (r : List Char) (segs : List Seg) (hclean : ∀ g ∈ segs, g.clean)
    (hno : ∀ g ∈ segs, g.idx ≠ some i) :
    subAll (slotPattern i) r (renderDoc segs) = renderDoc segs := by
  induction segs with
  | nil => rfl
  | cons g gs ih =>
    rw [slotPattern_eq] at ih ⊢
    rw [renderDoc_cons,
      subAll_skip_chunk r (renderDoc gs)
        (chunkSafe_start_of_clean hi1 hi2 g (hclean g (by simp)) (hno g (by simp))),
      ih (fun g' hg' => hclean g' (by simp [hg'])) (fun g' hg' => hno g' (by simp [hg']))]

theorem regionText_length_pos (i : Nat) (w1 a b c w2 : List Char) :
    1 ≤ (regionText i w1 a b c w2).length := by
  simp [regionText, markerStart]

/-- The document-level substitution: on a clean document the slot-`i`
substitution replaces exactly the rendering of the slot-`i` segment (if
any) with `r` and leaves everything else unchanged. -/
theorem subAll_renderDoc {i : Nat} (hi1 : 1 ≤ i) (hi2 : i ≤ 6)
    (r : List Char) (segs : List Seg) (hclean : ∀ g ∈ segs, g.clean)
    (hnodup : (segs.filterMap Seg.idx).Nodup) :
    subAll (slotPattern i) r (renderDoc segs)
      = (segs.map (fun g => if g.idx = some i then r else g.render)).flatten := by
  induction segs with
  | nil => rfl
  | cons g gs ih =>
    have hgclean : g.clean := hclean g (by simp)
    have hnodup' : (gs.filterMap Seg.idx).Nodup := by
      rcases g with t | ⟨j, w1, a, b, c, w2⟩
      · simpa [Seg.idx, List.filterMap_cons] using hnodup
      · rw [List.filterMap_cons] at hnodup
        simp only [Seg.idx] at hnodup
        exact hnodup.of_cons
    by_cases hg : g.idx = some i
    · rcases g with t | ⟨j, w1, a, b, c, w2⟩
      · simp [Seg.idx] at hg
      · have hj : j = i := by
          simpa [Seg.idx] using hg
        subst hj
        obtain ⟨hj1, hj2, hw1, ha, hb, hc, hw2⟩ := hgclean
        rw [renderDoc_cons]
        have hmatch := regionText_match j w1 a b c w2 (renderDoc gs)
          (fun ch hch => (hw1 ch hch).1)
          (fun ch hch => (ha ch hch).1) (fun ch hch => (ha ch hch).2.1)
          (fun ch hch => (hb ch hch).1) (fun ch hch => (hb ch hch).2.1)
          (fun ch hch => (hc ch hch).1) (fun ch hch => (hc ch hch).2.1)
          hw2
        rw [show (Seg.slot j w1 a b c w2).render = regionText j w1 a b c w2 from rfl]
        rw [subAll_match r hmatch (regionText_length_pos j w1 a b c w2),
          List.drop_left]
        have hno : ∀ g' ∈ gs, g'.idx ≠ some j := by
          intro g' hg' he
          rw [List.filterMap_cons] at hnodup
          simp only [Seg.idx] at hnodup
          rw [List.nodup_cons] at hnodup
          exact hnodup.1 (List.mem_filterMap.mpr ⟨g', hg', he⟩)
        rw [subAll_renderDoc_no_slot hj1 hj2 r gs
          (fun g' hg' => hclean g' (by simp [hg'])) hno]
        rw [List.map_cons, List.flatten_cons, if_pos hg]
        congr 1
        have : ∀ g' ∈ gs,
            (if g'.idx = some j then r else g'.render) = g'.render := by
          intro g' hg'
          rw [if_neg (hno g' hg')]
        rw [List.map_congr_left this]
        rfl
    · rw [slotPattern_eq] at ih ⊢
      rw [renderDoc_cons,
        subAll_skip_chunk r (renderDoc gs)
          (chunkSafe_start_of_clean hi1 hi2 g hgclean hg),
        ih (fun g' hg' => hclean g' (by simp [hg'])) hnodup',
        List.map_cons, List.flatten_cons, if_neg hg]

/-! ## `update_readme` (lines 62–143) and `__main__` (lines 163–196) -/

/-- Lines 98–129, one iteration of the slot loop at 1-based position `i`:
skip the slot when the repository lacks a name or URL (lines 102–104),
otherwise build the card (lines 111–115), substitute (lines 120–122) and
record whether the text changed (lines 124–129). -/
def processSlot (username : String) (i : Nat) (repo : Repo)
    (content : List Char) : List Char × Bool :=
  let repo_name := repo.name.getD ""
  let repo_url := repo.html_url.getD ""
  if repo_name = "" ∨ repo_url = "" then (content, false)
  else
    let card := buildCard username.toList repo_name.toList repo_url.toList
    let newContent := subAll (slotPattern i) (replText i card) content
    if newContent ≠ content then (newContent, true) else (content, false)

/-- The `for i, repo in enumerate(repos[:6], 1)` loop of lines 97–129
(the caller passes `repos.take 6`), accumulating the `updated` flag. -/
def updateSlots (username : String) : Nat → List Repo → List Char → List Char × Bool
  | _, [], content => (content, false)
  | i, repo :: rest, content =>
    let step := processSlot username i repo content
    let next := updateSlots username (i + 1) rest step.1
    (next.1, step.2 || next.2)

/-- The two files `update_readme` may look at: the `readme_file` argument
(`README.md` from `__main__`) and the fallback `profile.md`; `none`
models a missing file (`FileNotFoundError`, line 80). -/
structure Files where
  readme : Option (List Char)
  profile : Option (List Char)
deriving DecidableEq, Repr

/-- Python's `sub in s` substring test. -/
def containsSub (needle hay : List Char) : Bool :=
  hay.tails.any fun t => needle.isPrefixOf t

theorem containsSub_iff_infix {needle hay : List Char} :
    containsSub needle hay = true ↔ needle <:+: hay := by
  rw [containsSub, List.any_eq_true]
  constructor
  · rintro ⟨t, ht, hp⟩
    exact List.infix_iff_prefix_suffix.mpr
      ⟨t, List.isPrefixOf_iff_prefix.mp hp, (List.mem_tails t hay).mp ht⟩
  · intro h
    obtain ⟨t, hp, hs⟩ := List.infix_iff_prefix_suffix.mp h
    exact ⟨t, (List.mem_tails t hay).mpr hs, List.isPrefixOf_iff_prefix.mpr hp⟩

/-- Lines 68–81: choose the first of the two candidate files that exists
and contains the literal `'<!-- REPO_1_START -->'`; the boolean marks
whether the primary (readme) candidate was chosen. -/
def selectTarget (fs : Files) : Option (Bool × List Char) :=
  match fs.readme with
  | some content =>
    if containsSub (markerStart 1) content then some (true, content)
    else
      match fs.profile with
      | some p => if containsSub (markerStart 1) p then some (false, p) else none
      | none => none
  | none =>
    match fs.profile with
    | some p => if containsSub (markerStart 1) p then some (false, p) else none
    | none => none

/-- `update_readme(repos, 'README.md')`, lines 62–143: empty-list guard
(64–66), file selection (68–85), username extraction from the first
repository (87–91), the slot loop (96–129) and the final write (131–143,
modelled as always succeeding).  Returns the file system after the call
and the boolean result. -/
def update_readme (repos : List Repo) (fs : Files) : Files × Bool :=
  match repos with
  | [] => (fs, false)
  | r0 :: _ =>
    match selectTarget fs with
    | none => (fs, false)
    | some (isReadme, content) =>
      let username := r0.owner_login.getD "YOUR_USERNAME"
      if username = "" ∨ username = "YOUR_USERNAME" then (fs, false)
      else
        let result := updateSlots username 1 (repos.take 6) content
        if result.2 then
          (if isReadme then { fs with readme := some result.1 }
           else { fs with profile := some result.1 }, true)
        else (fs, false)

/-- `get_username()` (lines 146–160): `''` without a token, otherwise the
login of the authenticated user (oracle `userLogin`, `''` on a non-200
response). -/
def get_username (token : Option String) (userLogin : String) : String :=
  if token.isNone then "" else userLogin

/-- `username = os.getenv('REPO_OWNER') or get_username()` (line 170),
with Python truthiness of the environment value. -/
def resolvedUsername (repoOwner token : Option String) (userLogin : String) : String :=
  match repoOwner with
  | some s => if s ≠ "" then s else get_username token userLogin
  | none => get_username token userLogin

/-- The `__main__` block (lines 163–196): resolve the username, exit 1 if
it is empty (lines 172–174), fetch the ranked repositories (line 179),
update the file (line 194) and exit 0 on success, 1 otherwise
(line 196). -/
def mainExit (repoOwner token : Option String) (userLogin : String)
    (net : List (Nat × List Repo)) (fs : Files) : Nat :=
  let username := resolvedUsername repoOwner token userLogin
  if username = "" then 1
  else
    let repos :=
      match get_top_starred_repos token (some username) net 6 with
      | .ok rs => rs
      | .error _ => []
    if (update_readme repos fs).2 then 0 else 1

/-! ## Canonical slots -/

/-- Strings free of the markdown and marker delimiter characters (and of
backslashes, which the `re.sub` replacement template would otherwise
interpret).  GitHub user names, repository names and repository URLs
satisfy this. -/
def strClean (s : String) : Prop :=
  ∀ ch ∈ s.toList,
    ch ≠ '[' ∧ ch ≠ ']' ∧ ch ≠ '(' ∧ ch ≠ ')' ∧ ch ≠ '\n' ∧ ch ≠ '<' ∧ ch ≠ '\\'

def repoClean (r : Repo) : Prop :=
  strClean (r.name.getD "") ∧ strClean (r.html_url.getD "")

/-- With no `[` or `]` in the name, the alt-text escaping is the
identity. -/
theorem escapeAlt_id {s : List Char} (h : ∀ ch ∈ s, ch ≠ '[' ∧ ch ≠ ']') :
    escapeAlt s = s := by
  rw [escapeAlt_eq_escapeSpec]
  induction s with
  | nil => rfl
  | cons d cs ih =>
    have ih' := ih (fun ch hch => h ch (by simp [hch]))
    rw [escapeSpec] at ih' ⊢
    rw [List.flatMap_cons,
      if_neg (by
        rintro (h1 | h1)
        · exact (h d (by simp)).1 h1
        · exact (h d (by simp)).2 h1),
      ih']
    rfl

theorem statsConst1_chars :
    ∀ ch ∈ "https://github-readme-stats.vercel.app/api/pin/?username=".toList,
      ch ≠ ')' ∧ ch ≠ '\n' ∧ ch ≠ '<' := by decide

theorem statsConst2_chars :
    ∀ ch ∈ "&repo=".toList, ch ≠ ')' ∧ ch ≠ '\n' ∧ ch ≠ '<' := by decide

theorem statsConst3_chars :
    ∀ ch ∈ "&theme=dark&hide_border=true".toList,
      ch ≠ ')' ∧ ch ≠ '\n' ∧ ch ≠ '<' := by decide

theorem statsUrl_chars {u n : List Char}
    (hu : ∀ ch ∈ u, ch ≠ ')' ∧ ch ≠ '\n' ∧ ch ≠ '<')
    (hn : ∀ ch ∈ n, ch ≠ ')' ∧ ch ≠ '\n' ∧ ch ≠ '<') :
    ∀ ch ∈ statsUrl u n, ch ≠ ')' ∧ ch ≠ '\n' ∧ ch ≠ '<' := by
  intro ch hch
  rw [statsUrl] at hch
  simp only [List.mem_append] at hch
  rcases hch with (((h | h) | h) | h) | h
  · exact statsConst1_chars ch h
  · exact hu ch h
  · exact statsConst2_chars ch h
  · exact hn ch h
  · exact statsConst3_chars ch h

/-- Line 102: the slot is processed only when the repository has a name
and a URL. -/
def repoValid (r : Repo) : Prop :=
  ¬ (r.name.getD "" = "" ∨ r.html_url.getD "" = "")

/-- The canonical slot after a successful substitution: begin marker,
newline, the generated card, newline, end marker. -/
def canonSlot (username : String) (i : Nat) (repo : Repo) : Seg :=
  .slot i ['\n'] (escapeAlt (repo.name.getD "").toList)
    (statsUrl username.toList (repo.name.getD "").toList)
    ((repo.html_url.getD "").toList) ['\n']

theorem canonSlot_render (u : String) (i : Nat) (r : Repo) :
    (canonSlot u i r).render
      = replText i
          (buildCard u.toList (r.name.getD "").toList (r.html_url.getD "").toList) := by
  simp [canonSlot, Seg.render, regionText, replText, buildCard, cardShape,
    List.append_assoc]

theorem canonSlot_clean {u : String} {k : Nat} {r : Repo}
    (hk1 : 1 ≤ k) (hk2 : k ≤ 6) (hu : strClean u) (hr : repoClean r) :
    (canonSlot u k r).clean := by
  obtain ⟨hname, hurl⟩ := hr
  have hesc : escapeAlt (r.name.getD "").toList = (r.name.getD "").toList :=
    escapeAlt_id (fun ch hch => ⟨(hname ch hch).1, (hname ch hch).2.1⟩)
  refine ⟨hk1, hk2, ?_, ?_, ?_, ?_, ?_⟩
  · intro ch hch
    simp only [List.mem_singleton] at hch
    subst hch
    exact ⟨by decide, by decide⟩
  · intro ch hch
    rw [hesc] at hch
    have := hname ch hch
    exact ⟨this.2.1, this.2.2.2.2.1, this.2.2.2.2.2.1⟩
  · intro ch hch
    have := statsUrl_chars
      (fun d hd => ⟨(hu d hd).2.2.2.1, (hu d hd).2.2.2.2.1, (hu d hd).2.2.2.2.2.1⟩)
      (fun d hd => ⟨(hname d hd).2.2.2.1, (hname d hd).2.2.2.2.1,
        (hname d hd).2.2.2.2.2.1⟩) ch hch
    exact this
  · intro ch hch
    have := hurl ch hch
    exact ⟨this.2.2.2.1, this.2.2.2.2.1, this.2.2.2.2.2.1⟩
  · intro ch hch
    simp only [List.mem_singleton] at hch
    subst hch
    decide

/-- The effect of processing rank position `k` with repository `r` on one
document segment: the slot-`k` segment becomes canonical when the
repository has a name and URL, everything else is unchanged. -/
def applyRepoSeg (u : String) (k : Nat) (r : Repo) (g : Seg) : Seg :=
  if r.name.getD "" = "" ∨ r.html_url.getD "" = "" then g
  else match g with
    | .slot j w1 a b c w2 => if j = k then canonSlot u k r else .slot j w1 a b c w2
    | .txt t => .txt t

theorem applyRepoSeg_idx (u : String) (k : Nat) (r : Repo) (g : Seg) :
    (applyRepoSeg u k r g).idx = g.idx := by
  simp only [applyRepoSeg]
  by_cases hv : r.name.getD "" = "" ∨ r.html_url.getD "" = ""
  · rw [if_pos hv]
  · rw [if_neg hv]
    cases g with
    | txt t => rfl
    | slot j w1 a b c w2 =>
      show (if j = k then canonSlot u k r else Seg.slot j w1 a b c w2).idx
        = (Seg.slot j w1 a b c w2).idx
      by_cases hj : j = k
      · subst hj
        rw [if_pos rfl]
        rfl
      · rw [if_neg hj]

theorem applyRepoSeg_clean {u : String} {k : Nat} {r : Repo}
    (hk1 : 1 ≤ k) (hk2 : k ≤ 6) (hu : strClean u) (hr : repoClean r)
    {g : Seg} (hg : g.clean) : (applyRepoSeg u k r g).clean := by
  simp only [applyRepoSeg]
  by_cases hv : r.name.getD "" = "" ∨ r.html_url.getD "" = ""
  · rw [if_pos hv]
    exact hg
  · rw [if_neg hv]
    cases g with
    | txt t => exact hg
    | slot j w1 a b c w2 =>
      show (if j = k then canonSlot u k r else Seg.slot j w1 a b c w2).clean
      by_cases hj : j = k
      · subst hj
        rw [if_pos rfl]
        exact canonSlot_clean hk1 hk2 hu hr
      · rw [if_neg hj]
        exact hg

/-! ## The pass theorems -/

/-- One slot step on a clean structured document: the result is the
rendering of the mapped segments, and the change flag records whether
that differs from the input text. -/
theorem processSlot_doc (u : String) {k : Nat} (hk1 : 1 ≤ k) (hk2 : k ≤ 6)
    (repo : Repo) (segs : List Seg) (hclean : ∀ g ∈ segs, g.clean)
    (hnodup : (segs.filterMap Seg.idx).Nodup) :
    processSlot u k repo (renderDoc segs)
      = if renderDoc (segs.map (applyRepoSeg u k repo)) ≠ renderDoc segs
        then (renderDoc (segs.map (applyRepoSeg u k repo)), true)
        else (renderDoc segs, false) := by
  by_cases hv : repo.name.getD "" = "" ∨ repo.html_url.getD "" = ""
  · have hmap : segs.map (applyRepoSeg u k repo) = segs := by
      have hpt : ∀ g ∈ segs, applyRepoSeg u k repo g = id g := by
        intro g hg
        simp only [applyRepoSeg, if_pos hv, id]
      rw [List.map_congr_left hpt, List.map_id]
    rw [hmap]
    simp only [processSlot]
    rw [if_pos hv, if_neg (by intro h; exact h rfl)]
  · simp only [processSlot]
    rw [if_neg hv]
    have hsub : subAll (slotPattern k)
        (replText k (buildCard u.toList (repo.name.getD "").toList
          (repo.html_url.getD "").toList))
        (renderDoc segs)
        = renderDoc (segs.map (applyRepoSeg u k repo)) := by
      rw [subAll_renderDoc hk1 hk2 _ segs hclean hnodup, renderDoc, List.map_map]
      congr 1
      apply List.map_congr_left
      intro g hg
      simp only [Function.comp]
      cases g with
      | txt t =>
        rw [if_neg (by simp [Seg.idx])]
        simp only [applyRepoSeg, if_neg hv]
      | slot j w1 a b c w2 =>
        by_cases hj : j = k
        · subst hj
          rw [if_pos (by simp [Seg.idx])]
          simp only [applyRepoSeg, if_neg hv, eq_self_iff_true, if_true]
          rw [canonSlot_render]
        · rw [if_neg (by simp [Seg.idx, hj])]
          simp only [applyRepoSeg, if_neg hv]
          rw [if_neg hj]
    rw [hsub]

/-- The accumulated effect of the slot loop on the segments. -/
def applyAll (u : String) : Nat → List Repo → List Seg → List Seg
  | _, [], segs => segs
  | k, r :: rs, segs => applyAll u (k + 1) rs (segs.map (applyRepoSeg u k r))

theorem updateSlots_cons (u : String) (k : Nat) (r : Repo) (rest : List Repo)
    (content : List Char) :
    updateSlots u k (r :: rest) content
      = ((updateSlots u (k + 1) rest (processSlot u k r content).1).1,
        (processSlot u k r content).2
          || (updateSlots u (k + 1) rest (processSlot u k r content).1).2) := rfl

theorem updateSlots_doc (u : String) (repos : List Repo) : ∀ (k : Nat) (segs : List Seg),
    1 ≤ k → k + repos.length ≤ 7 → strClean u → (∀ r ∈ repos, repoClean r) →
    (∀ g ∈ segs, g.clean) → (segs.filterMap Seg.idx).Nodup →
    (updateSlots u k repos (renderDoc segs)).1 = renderDoc (applyAll u k repos segs) := by
  induction repos with
  | nil =>
    intro k segs _ _ _ _ _ _
    rfl
  | cons r rs ih =>
    intro k segs hk1 hb hu hr hclean hnodup
    simp only [List.length_cons] at hb
    have hk2 : k ≤ 6 := by omega
    have hstep := processSlot_doc u hk1 hk2 r segs hclean hnodup
    have hstep1 : (processSlot u k r (renderDoc segs)).1
        = renderDoc (segs.map (applyRepoSeg u k r)) := by
      rw [hstep]
      by_cases h : renderDoc (segs.map (applyRepoSeg u k r)) ≠ renderDoc segs
      · rw [if_pos h]
      · rw [if_neg h]
        push_neg at h
        exact h.symm
    have hcleanmap : ∀ g ∈ segs.map (applyRepoSeg u k r), g.clean := by
      intro g hg
      obtain ⟨g', hg', rfl⟩ := List.mem_map.mp hg
      exact applyRepoSeg_clean hk1 hk2 hu (hr r (by simp)) (hclean g' hg')
    have hnodupmap : ((segs.map (applyRepoSeg u k r)).filterMap Seg.idx).Nodup := by
      rw [List.filterMap_map,
        show Seg.idx ∘ applyRepoSeg u k r = Seg.idx from
          funext (fun g => applyRepoSeg_idx u k r g)]
      exact hnodup
    rw [updateSlots_cons]
    show (updateSlots u (k + 1) rs (processSlot u k r (renderDoc segs)).1).1 = _
    rw [hstep1,
      ih (k + 1) (segs.map (applyRepoSeg u k r)) (by omega) (by omega) hu
        (fun x hx => hr x (by simp [hx])) hcleanmap hnodupmap]
    rfl

/-- When every step of the loop leaves the segments unchanged, the loop
returns the text unchanged with `updated = False`. -/
theorem updateSlots_fixed (u : String) (repos : List Repo) : ∀ (k : Nat) (segs : List Seg),
    1 ≤ k → k + repos.length ≤ 7 →
    (∀ g ∈ segs, g.clean) → (segs.filterMap Seg.idx).Nodup →
    (∀ (n : Nat) (r' : Repo), repos.get? n = some r' →
      segs.map (applyRepoSeg u (k + n) r') = segs) →
    updateSlots u k repos (renderDoc segs) = (renderDoc segs, false) := by
  induction repos with
  | nil =>
    intro k segs _ _ _ _ _
    rfl
  | cons r rs ih =>
    intro k segs hk1 hb hclean hnodup hfix
    simp only [List.length_cons] at hb
    have hk2 : k ≤ 6 := by omega
    have h0 : segs.map (applyRepoSeg u k r) = segs := by
      have := hfix 0 r rfl
      simpa using this
    have hstep := processSlot_doc u hk1 hk2 r segs hclean hnodup
    rw [h0, if_neg (by intro h; exact h rfl)] at hstep
    have hrec := ih (k + 1) segs (by omega) (by omega) hclean hnodup
      (fun n r' hr' => by
        have := hfix (n + 1) r' hr'
        rwa [show k + (n + 1) = k + 1 + n by omega] at this)
    rw [updateSlots_cons, hstep, hrec]
    rfl

/-! ## The canonical document -/

/-- The pointwise effect of a whole pass: the slot at index `j` becomes
canonical exactly when a `j`-th repository exists among the first six and
has a name and URL; text segments and other slots are unchanged. -/
def canonSeg (u : String) (repos : List Repo) (g : Seg) : Seg :=
  match g with
  | .slot j w1 a b c w2 =>
    Option.elim ((repos.take 6).get? (j - 1)) (.slot j w1 a b c w2)
      (fun r => if 1 ≤ j ∧ ¬ (r.name.getD "" = "" ∨ r.html_url.getD "" = "")
        then canonSlot u j r else .slot j w1 a b c w2)
  | .txt t => .txt t

def canonDoc (u : String) (repos : List Repo) (segs : List Seg) : List Seg :=
  segs.map (canonSeg u repos)

/-- The per-segment iterated step function underlying `applyAll`. -/
def applyFun (u : String) : Nat → List Repo → Seg → Seg
  | _, [], g => g
  | k, r :: rs, g => applyFun u (k + 1) rs (applyRepoSeg u k r g)

theorem applyAll_eq_map (u : String) (rs : List Repo) : ∀ (k : Nat) (segs : List Seg),
    applyAll u k rs segs = segs.map (applyFun u k rs) := by
  induction rs with
  | nil =>
    intro k segs
    show segs = _
    rw [show (applyFun u k [] : Seg → Seg) = id from funext (fun g => rfl), List.map_id]
  | cons r rs' ih =>
    intro k segs
    show applyAll u (k + 1) rs' (segs.map (applyRepoSeg u k r)) = _
    rw [ih (k + 1), List.map_map]
    rfl

theorem applyFun_txt (u : String) (rs : List Repo) : ∀ (k : Nat) (t : List Char),
    applyFun u k rs (.txt t) = .txt t := by
  induction rs with
  | nil => intro k t; rfl
  | cons r rs' ih =>
    intro k t
    show applyFun u (k + 1) rs' (applyRepoSeg u k r (.txt t)) = _
    by_cases hv : r.name.getD "" = "" ∨ r.html_url.getD "" = ""
    · rw [show applyRepoSeg u k r (.txt t) = .txt t from by
        simp only [applyRepoSeg, if_pos hv], ih]
    · rw [show applyRepoSeg u k r (.txt t) = .txt t from by
        simp only [applyRepoSeg, if_neg hv], ih]

theorem applyFun_slot (u : String) (rs : List Repo) :
    ∀ (k j : Nat) (w1 a b c w2 : List Char),
    applyFun u k rs (.slot j w1 a b c w2)
      = Option.elim (rs.get? (j - k)) (.slot j w1 a b c w2)
          (fun r => if k ≤ j ∧ ¬ (r.name.getD "" = "" ∨ r.html_url.getD "" = "")
            then canonSlot u j r else .slot j w1 a b c w2) := by
  induction rs with
  | nil => intro k j w1 a b c w2; rfl
  | cons r rs' ih =>
    intro k j w1 a b c w2
    show applyFun u (k + 1) rs' (applyRepoSeg u k r (.slot j w1 a b c w2))
      = Option.elim ((r :: rs').get? (j - k)) _ _
    rcases Nat.lt_trichotomy j k with hjk | hjk | hjk
    · have hstep : applyRepoSeg u k r (.slot j w1 a b c w2) = .slot j w1 a b c w2 := by
        by_cases hv : r.name.getD "" = "" ∨ r.html_url.getD "" = ""
        · simp only [applyRepoSeg, if_pos hv]
        · simp only [applyRepoSeg, if_neg hv]
          rw [if_neg (by omega)]
      rw [hstep, ih (k + 1) j, show j - (k + 1) = 0 by omega, show j - k = 0 by omega,
        show (r :: rs').get? 0 = some r from rfl, Option.elim_some,
        if_neg (fun h => absurd h.1 (by omega))]
      cases rs'.get? 0 with
      | none => rw [Option.elim_none]
      | some r' =>
        rw [Option.elim_some, if_neg (fun h => absurd h.1 (by omega))]
    · subst hjk
      rw [show j - j = 0 by omega, show (r :: rs').get? 0 = some r from rfl,
        Option.elim_some]
      by_cases hv : r.name.getD "" = "" ∨ r.html_url.getD "" = ""
      · rw [show applyRepoSeg u j r (.slot j w1 a b c w2) = .slot j w1 a b c w2 from by
          simp only [applyRepoSeg, if_pos hv],
          ih (j + 1) j, show j - (j + 1) = 0 by omega,
          if_neg (fun h => absurd h.2 (fun hc => hc hv))]
        cases rs'.get? 0 with
        | none => rw [Option.elim_none]
        | some r' =>
          rw [Option.elim_some, if_neg (fun h => absurd h.1 (by omega))]
      · rw [show applyRepoSeg u j r (.slot j w1 a b c w2) = canonSlot u j r from by
          simp only [applyRepoSeg, if_neg hv]
          rw [if_pos trivial],
          if_pos ⟨le_refl j, hv⟩,
          show canonSlot u j r = Seg.slot j ['\n']
            (escapeAlt (r.name.getD "").toList)
            (statsUrl u.toList (r.name.getD "").toList)
            ((r.html_url.getD "").toList) ['\n'] from rfl,
          ih (j + 1) j, show j - (j + 1) = 0 by omega]
        cases rs'.get? 0 with
        | none => rw [Option.elim_none]
        | some r' =>
          rw [Option.elim_some, if_neg (fun h => absurd h.1 (by omega))]
    · have hstep : applyRepoSeg u k r (.slot j w1 a b c w2) = .slot j w1 a b c w2 := by
        by_cases hv : r.name.getD "" = "" ∨ r.html_url.getD "" = ""
        · simp only [applyRepoSeg, if_pos hv]
        · simp only [applyRepoSeg, if_neg hv]
          rw [if_neg (by omega)]
      rw [hstep, ih (k + 1) j, show j - k = (j - (k + 1)) + 1 by omega,
        show (r :: rs').get? ((j - (k + 1)) + 1) = rs'.get? (j - (k + 1)) from rfl]
      cases rs'.get? (j - (k + 1)) with
      | none => rw [Option.elim_none, Option.elim_none]
      | some r' =>
        rw [Option.elim_some, Option.elim_some]
        by_cases hv' : r'.name.getD "" = "" ∨ r'.html_url.getD "" = ""
        · rw [if_neg (fun h => absurd h.2 (fun hc => hc hv')),
            if_neg (fun h => absurd h.2 (fun hc => hc hv'))]
        · rw [if_pos ⟨by omega, hv'⟩, if_pos ⟨by omega, hv'⟩]

theorem applyRepoSeg_slot_ne {u : String} {k : Nat} {r : Repo}
    (hv : ¬ (r.name.getD "" = "" ∨ r.html_url.getD "" = "")) {j : Nat} (hj : j ≠ k)
    (w1 a b c w2 : List Char) :
    applyRepoSeg u k r (.slot j w1 a b c w2) = .slot j w1 a b c w2 := by
  simp only [applyRepoSeg, if_neg hv]
  rw [if_neg hj]

theorem applyRepoSeg_slot_eq {u : String} {k : Nat} {r : Repo}
    (hv : ¬ (r.name.getD "" = "" ∨ r.html_url.getD "" = ""))
    (w1 a b c w2 : List Char) :
    applyRepoSeg u k r (.slot k w1 a b c w2) = canonSlot u k r := by
  simp only [applyRepoSeg, if_neg hv]
  rw [if_pos trivial]

theorem canonSlot_eq_slot (u : String) (j : Nat) (r : Repo) :
    canonSlot u j r = Seg.slot j ['\n']
      (escapeAlt (r.name.getD "").toList)
      (statsUrl u.toList (r.name.getD "").toList)
      ((r.html_url.getD "").toList) ['\n'] := rfl

/-- A whole pass maps the segments pointwise to their canonical form. -/
theorem applyAll_eq_canonDoc (u : String) (repos : List Repo) (segs : List Seg) :
    applyAll u 1 (repos.take 6) segs = canonDoc u repos segs := by
  rw [applyAll_eq_map, canonDoc]
  apply List.map_congr_left
  intro g _
  cases g with
  | txt t =>
    rw [applyFun_txt]
    rfl
  | slot j w1 a b c w2 =>
    rw [applyFun_slot]
    rfl

theorem canonSeg_clean {u : String} {repos : List Repo}
    (hu : strClean u) (hr : ∀ r ∈ repos, repoClean r)
    {g : Seg} (hg : g.clean) : (canonSeg u repos g).clean := by
  cases g with
  | txt t => exact hg
  | slot j w1 a b c w2 =>
    show (Option.elim ((repos.take 6).get? (j - 1)) (Seg.slot j w1 a b c w2)
      (fun r => if 1 ≤ j ∧ ¬ (r.name.getD "" = "" ∨ r.html_url.getD "" = "")
        then canonSlot u j r else Seg.slot j w1 a b c w2)).clean
    cases hget : (repos.take 6).get? (j - 1) with
    | none =>
      rw [Option.elim_none]
      exact hg
    | some r =>
      rw [Option.elim_some]
      by_cases hcond : 1 ≤ j ∧ ¬ (r.name.getD "" = "" ∨ r.html_url.getD "" = "")
      · rw [if_pos hcond]
        obtain ⟨hj1, hj2, -⟩ := hg
        have hmem : r ∈ repos :=
          (List.take_prefix 6 repos).subset (List.get?_mem hget)
        exact canonSlot_clean hj1 hj2 hu (hr r hmem)
      · rw [if_neg hcond]
        exact hg

theorem canonSeg_idx (u : String) (repos : List Repo) (g : Seg) :
    (canonSeg u repos g).idx = g.idx := by
  cases g with
  | txt t => rfl
  | slot j w1 a b c w2 =>
    show (Option.elim ((repos.take 6).get? (j - 1)) (Seg.slot j w1 a b c w2)
      (fun r => if 1 ≤ j ∧ ¬ (r.name.getD "" = "" ∨ r.html_url.getD "" = "")
        then canonSlot u j r else Seg.slot j w1 a b c w2)).idx
      = (Seg.slot j w1 a b c w2).idx
    cases (repos.take 6).get? (j - 1) with
    | none => rw [Option.elim_none]
    | some r =>
      rw [Option.elim_some]
      by_cases hcond : 1 ≤ j ∧ ¬ (r.name.getD "" = "" ∨ r.html_url.getD "" = "")
      · rw [if_pos hcond]
        rfl
      · rw [if_neg hcond]

/-- A canonical segment is a fixed point of every step of a second
pass. -/
theorem applyRepoSeg_canonSeg_fixed (u : String) (repos : List Repo)
    (n : Nat) (r' : Repo) (hget : (repos.take 6).get? n = some r')
    (g : Seg) : applyRepoSeg u (1 + n) r' (canonSeg u repos g) = canonSeg u repos g := by
  by_cases hv : r'.name.getD "" = "" ∨ r'.html_url.getD "" = ""
  · simp only [applyRepoSeg, if_pos hv]
  · cases g with
    | txt t =>
      show applyRepoSeg u (1 + n) r' (.txt t) = .txt t
      simp only [applyRepoSeg, if_neg hv]
    | slot j w1 a b c w2 =>
      show applyRepoSeg u (1 + n) r'
          (Option.elim ((repos.take 6).get? (j - 1)) (Seg.slot j w1 a b c w2)
            (fun r => if 1 ≤ j ∧ ¬ (r.name.getD "" = "" ∨ r.html_url.getD "" = "")
              then canonSlot u j r else Seg.slot j w1 a b c w2))
        = Option.elim ((repos.take 6).get? (j - 1)) (Seg.slot j w1 a b c w2)
            (fun r => if 1 ≤ j ∧ ¬ (r.name.getD "" = "" ∨ r.html_url.getD "" = "")
              then canonSlot u j r else Seg.slot j w1 a b c w2)
      by_cases hj : j = 1 + n
      · subst hj
        rw [show 1 + n - 1 = n by omega, hget, Option.elim_some,
          if_pos ⟨by omega, hv⟩, canonSlot_eq_slot,
          applyRepoSeg_slot_eq hv, canonSlot_eq_slot]
      · cases hget2 : (repos.take 6).get? (j - 1) with
        | none =>
          rw [Option.elim_none]
          exact applyRepoSeg_slot_ne hv hj w1 a b c w2
        | some r'' =>
          rw [Option.elim_some]
          by_cases hcond : 1 ≤ j ∧ ¬ (r''.name.getD "" = "" ∨ r''.html_url.getD "" = "")
          · rw [if_pos hcond, canonSlot_eq_slot]
            rw [applyRepoSeg_slot_ne hv hj]
          · rw [if_neg hcond]
            exact applyRepoSeg_slot_ne hv hj w1 a b c w2

/-- Canonicalising twice is the same as canonicalising once. -/
theorem canonSeg_canonSeg (u : String) (repos : List Repo) (g : Seg) :
    canonSeg u repos (canonSeg u repos g) = canonSeg u repos g := by
  cases g with
  | txt t => rfl
  | slot j w1 a b c w2 =>
    show canonSeg u repos
        (Option.elim ((repos.take 6).get? (j - 1)) (Seg.slot j w1 a b c w2)
          (fun r => if 1 ≤ j ∧ ¬ (r.name.getD "" = "" ∨ r.html_url.getD "" = "")
            then canonSlot u j r else Seg.slot j w1 a b c w2))
      = Option.elim ((repos.take 6).get? (j - 1)) (Seg.slot j w1 a b c w2)
          (fun r => if 1 ≤ j ∧ ¬ (r.name.getD "" = "" ∨ r.html_url.getD "" = "")
            then canonSlot u j r else Seg.slot j w1 a b c w2)
    cases hget : (repos.take 6).get? (j - 1) with
    | none =>
      rw [Option.elim_none]
      show Option.elim ((repos.take 6).get? (j - 1)) (Seg.slot j w1 a b c w2)
        (fun r => if 1 ≤ j ∧ ¬ (r.name.getD "" = "" ∨ r.html_url.getD "" = "")
          then canonSlot u j r else Seg.slot j w1 a b c w2) = Seg.slot j w1 a b c w2
      rw [hget, Option.elim_none]
    | some r =>
      rw [Option.elim_some]
      by_cases hcond : 1 ≤ j ∧ ¬ (r.name.getD "" = "" ∨ r.html_url.getD "" = "")
      · rw [if_pos hcond, canonSlot_eq_slot]
        show Option.elim ((repos.take 6).get? (j - 1)) (Seg.slot j ['\n']
            (escapeAlt (r.name.getD "").toList)
            (statsUrl u.toList (r.name.getD "").toList)
            ((r.html_url.getD "").toList) ['\n'])
          (fun r' => if 1 ≤ j ∧ ¬ (r'.name.getD "" = "" ∨ r'.html_url.getD "" = "")
            then canonSlot u j r' else Seg.slot j ['\n']
              (escapeAlt (r.name.getD "").toList)
              (statsUrl u.toList (r.name.getD "").toList)
              ((r.html_url.getD "").toList) ['\n'])
          = Seg.slot j ['\n']
              (escapeAlt (r.name.getD "").toList)
              (statsUrl u.toList (r.name.getD "").toList)
              ((r.html_url.getD "").toList) ['\n']
        rw [hget, Option.elim_some, if_pos hcond, canonSlot_eq_slot]
      · rw [if_neg hcond]
        show Option.elim ((repos.take 6).get? (j - 1)) (Seg.slot j w1 a b c w2)
          (fun r' => if 1 ≤ j ∧ ¬ (r'.name.getD "" = "" ∨ r'.html_url.getD "" = "")
            then canonSlot u j r' else Seg.slot j w1 a b c w2)
          = Seg.slot j w1 a b c w2
        rw [hget, Option.elim_some, if_neg hcond]

/-- One full pass on a clean structured document canonicalises exactly
the applicable slots. -/
theorem updateSlots_canonDoc (u : String) (repos : List Repo) (segs : List Seg)
    (hu : strClean u) (hr : ∀ r ∈ repos, repoClean r)
    (hclean : ∀ g ∈ segs, g.clean) (hnodup : (segs.filterMap Seg.idx).Nodup) :
    (updateSlots u 1 (repos.take 6) (renderDoc segs)).1
      = renderDoc (canonDoc u repos segs) := by
  rw [← applyAll_eq_canonDoc]
  exact updateSlots_doc u (repos.take 6) 1 segs (le_refl 1)
    (by have := List.length_take_le 6 repos; omega)
    hu (fun r hrr => hr r ((List.take_prefix 6 repos).subset hrr)) hclean hnodup

theorem canonDoc_clean {u : String} {repos : List Repo} {segs : List Seg}
    (hu : strClean u) (hr : ∀ r ∈ repos, repoClean r)
    (hclean : ∀ g ∈ segs, g.clean) :
    ∀ g ∈ canonDoc u repos segs, g.clean := by
  intro g hg
  obtain ⟨g', hg', rfl⟩ := List.mem_map.mp hg
  exact canonSeg_clean hu hr (hclean g' hg')

theorem canonDoc_nodup {u : String} {repos : List Repo} {segs : List Seg}
    (hnodup : (segs.filterMap Seg.idx).Nodup) :
    ((canonDoc u repos segs).filterMap Seg.idx).Nodup := by
  rw [canonDoc, List.filterMap_map,
    show Seg.idx ∘ canonSeg u repos = Seg.idx from
      funext (fun g => canonSeg_idx u repos g)]
  exact hnodup

/-- A second pass over an already canonical document changes nothing and
reports no change. -/
theorem updateSlots_second_pass (u : String) (repos : List Repo) (segs : List Seg)
    (hu : strClean u) (hr : ∀ r ∈ repos, repoClean r)
    (hclean : ∀ g ∈ segs, g.clean) (hnodup : (segs.filterMap Seg.idx).Nodup) :
    updateSlots u 1 (repos.take 6) (renderDoc (canonDoc u repos segs))
      = (renderDoc (canonDoc u repos segs), false) := by
  apply updateSlots_fixed u (repos.take 6) 1 (canonDoc u repos segs) (le_refl 1)
    (by have := List.length_take_le 6 repos; omega)
    (canonDoc_clean hu hr hclean) (canonDoc_nodup hnodup)
  intro n r' hget
  rw [canonDoc, List.map_map]
  apply List.map_congr_left
  intro g _
  exact applyRepoSeg_canonSeg_fixed u repos n r' hget g

theorem update_readme_cons (r0 : Repo) (rs : List Repo) (fs : Files) :
    update_readme (r0 :: rs) fs
      = match selectTarget fs with
        | none => (fs, false)
        | some (isReadme, content) =>
          if r0.owner_login.getD "YOUR_USERNAME" = ""
              ∨ r0.owner_login.getD "YOUR_USERNAME" = "YOUR_USERNAME" then (fs, false)
          else
            let result := updateSlots (r0.owner_login.getD "YOUR_USERNAME") 1
              ((r0 :: rs).take 6) content
            if result.2 then
              (if isReadme then { fs with readme := some result.1 }
               else { fs with profile := some result.1 }, true)
            else (fs, false) := rfl

theorem processSlot_login_irrel (u : String) (i : Nat) (x : Repo)
    (login : Option String) (content : List Char) :
    processSlot u i { x with owner_login := login } content
      = processSlot u i x content := rfl

theorem updateSlots_login_irrel (u : String) (login : Option String) :
    ∀ (l : List Repo) (k : Nat) (content : List Char),
    updateSlots u k (l.map fun x => { x with owner_login := login }) content
      = updateSlots u k l content := by
  intro l
  induction l with
  | nil => intro k content; rfl
  | cons x xs ih =>
    intro k content
    rw [List.map_cons, updateSlots_cons, updateSlots_cons,
      processSlot_login_irrel, ih]

/-! ## Claims C2, C3, C4, C6, C7, C10 -/

/-- C2 (counterexample): the claim says the patch locates the region
between the slot-1 markers and replaces its inner content with the new
card "spanning an existing placeholder card if one is present".  On a
document whose slot-1 region contains no card-shaped placeholder the
regex of line 120 (which requires an existing `[![..](..)](..)` span
between the markers) does not match: the marker pair is present and the
repository has a name and URL, yet the patch changes nothing and no card
is inserted. -/
theorem C2_counterexample :
    (let doc := "<!-- REPO_1_START -->\nplaceholder\n<!-- REPO_1_END -->".toList
     let r : Repo := ⟨some "repo", some "http://e/repo", some 5, some "alice"⟩
     containsSub (markerStart 1) doc = true ∧
     containsSub (markerEnd 1) doc = true ∧
     r.name.getD "" ≠ "" ∧ r.html_url.getD "" ≠ "" ∧
     updateSlots "alice" 1 [r] doc = (doc, false)) := by decide

/-- C2 (amended): for a document `pre ++ region ++ post` whose slot-`i`
region is well formed and *contains an existing placeholder card*
`[![a](b)](c)`, where no occurrence of the slot-`i` begin marker can
start inside `pre` or `post`, the region components avoid the delimiter
characters of the pattern, and the account login, repository name and
repository URL contain no backslash (so that the `re.sub` replacement
template of lines 121–122 inserts the built card literally instead of
expanding backslash escapes occurring inside it), the slot step replaces
the entire inner content of the region with newline, the newly built
card, newline — keeping the marker tokens and the surrounding text
unchanged.  (Without a card-shaped span between the markers the pattern
does not match and the region is left unchanged, as the counterexample
shows.) -/
theorem C2_amended (u : String) (i : Nat) (r : Repo) (pre post w1 a b c w2 : List Char)
    (hi1 : 1 ≤ i) (hi2 : i ≤ 6)
    (hname : r.name.getD "" ≠ "") (hurl : r.html_url.getD "" ≠ "")
    (hubs : ∀ ch ∈ u.toList, ch ≠ '\\')
    (hnbs : ∀ ch ∈ (r.name.getD "").toList, ch ≠ '\\')
    (hurlbs : ∀ ch ∈ (r.html_url.getD "").toList, ch ≠ '\\')
    (hpre : chunkSafe (markerStart i) pre = true)
    (hpost : chunkSafe (markerStart i) post = true)
    (hw1 : ∀ ch ∈ w1, ch ≠ '[')
    (ha1 : ∀ ch ∈ a, ch ≠ ']') (ha2 : ∀ ch ∈ a, ch ≠ '\n')
    (hb1 : ∀ ch ∈ b, ch ≠ ')') (hb2 : ∀ ch ∈ b, ch ≠ '\n')
    (hc1 : ∀ ch ∈ c, ch ≠ ')') (hc2 : ∀ ch ∈ c, ch ≠ '\n')
    (hw2 : ∀ ch ∈ w2, ch ≠ '<') :
    (processSlot u i r (pre ++ regionText i w1 a b c w2 ++ post)).1
      = pre ++ replText i (buildCard u.toList (r.name.getD "").toList
          (r.html_url.getD "").toList) ++ post := by
  have hv : ¬ (r.name.getD "" = "" ∨ r.html_url.getD "" = "") := by
    rintro (h | h)
    · exact hname h
    · exact hurl h
  have hsub : subAll (slotPattern i)
      (replText i (buildCard u.toList (r.name.getD "").toList
        (r.html_url.getD "").toList))
      (pre ++ regionText i w1 a b c w2 ++ post)
      = pre ++ replText i (buildCard u.toList (r.name.getD "").toList
          (r.html_url.getD "").toList) ++ post := by
    rw [List.append_assoc, slotPattern_eq, subAll_skip_chunk _ _ hpre, ← slotPattern_eq,
      subAll_match _ (regionText_match i w1 a b c w2 post hw1 ha1 ha2 hb1 hb2 hc1 hc2 hw2)
        (regionText_length_pos i w1 a b c w2),
      List.drop_left, slotPattern_eq, subAll_id_of_chunkSafe _ hpost,
      ← List.append_assoc]
  simp only [processSlot]
  rw [if_neg hv, hsub]
  by_cases hch : pre ++ replText i (buildCard u.toList (r.name.getD "").toList
      (r.html_url.getD "").toList) ++ post
      ≠ pre ++ regionText i w1 a b c w2 ++ post
  · rw [if_pos hch]
  · rw [if_neg hch]
    push_neg at hch
    exact hch.symm

theorem C2_witness :
    (1 ≤ 1 ∧ (1 : Nat) ≤ 6 ∧
     (sampleRepo.name.getD "" ≠ "") ∧ (sampleRepo.html_url.getD "" ≠ "") ∧
     (∀ ch ∈ "alice".toList, ch ≠ '\\') ∧
     (∀ ch ∈ (sampleRepo.name.getD "").toList, ch ≠ '\\') ∧
     (∀ ch ∈ (sampleRepo.html_url.getD "").toList, ch ≠ '\\') ∧
     chunkSafe (markerStart 1) "Intro text.\n".toList = true ∧
     chunkSafe (markerStart 1) "\nTrailing text.".toList = true) ∧
    (processSlot "alice" 1 sampleRepo
        ("Intro text.\n".toList
          ++ regionText 1 ['\n'] "old".toList "imgurl".toList "target".toList ['\n']
          ++ "\nTrailing text.".toList)).1
      = "Intro text.\n".toList
        ++ replText 1 (buildCard "alice".toList (sampleRepo.name.getD "").toList
            (sampleRepo.html_url.getD "").toList)
        ++ "\nTrailing text.".toList :=
  ⟨⟨le_refl 1, by decide, by decide, by decide, by decide, by decide, by decide,
    by decide, by decide⟩,
    C2_amended "alice" 1 sampleRepo "Intro text.\n".toList "\nTrailing text.".toList
      ['\n'] "old".toList "imgurl".toList "target".toList ['\n']
      (le_refl 1) (by decide) (by decide) (by decide) (by decide) (by decide)
      (by decide) (by decide) (by decide) (by decide) (by decide) (by decide)
      (by decide) (by decide) (by decide) (by decide) (by decide)⟩

/-- C3 (counterexample): the claim says the patch fails exactly when no
slot in either candidate document contains any recognizable marker pair.
But the file-selection check of line 75 looks only for the literal
`'<!-- REPO_1_START -->'`: a readme whose slot 2 is a complete,
matchable marker pair (and no profile file) is rejected and the update
fails without writing, although a recognizable marker pair is present. -/
theorem C3_counterexample :
    (let doc := "<!-- REPO_2_START -->\n[![a](b)](c)\n<!-- REPO_2_END -->".toList
     let fs : Files := ⟨some doc, none⟩
     containsSub (markerStart 2) doc = true ∧
     containsSub (markerEnd 2) doc = true ∧
     update_readme [⟨some "repo", some "http://e/repo", some 5, some "alice"⟩] fs
        = (fs, false)) := by decide

/-- C3 (amended): the patch tries the primary file first and falls back
to the secondary when the primary is missing or does not contain the
literal slot-1 begin marker `'<!-- REPO_1_START -->'` (the only marker
the source-selection check of line 75 recognises); the selection comes up
empty exactly when neither candidate contains that literal, and in that
case the update fails without writing any file. -/
theorem C3_amended (fs : Files) (repos : List Repo) (hne : repos ≠ []) :
    (selectTarget fs = none
      ↔ (∀ d, fs.readme = some d → containsSub (markerStart 1) d = false)
        ∧ (∀ d, fs.profile = some d → containsSub (markerStart 1) d = false)) ∧
    (∀ d, fs.readme = some d → containsSub (markerStart 1) d = true
      → selectTarget fs = some (true, d)) ∧
    (∀ p, fs.profile = some p → containsSub (markerStart 1) p = true
      → (∀ d, fs.readme = some d → containsSub (markerStart 1) d = false)
      → selectTarget fs = some (false, p)) ∧
    (selectTarget fs = none → update_readme repos fs = (fs, false)) := by
  obtain ⟨ro, po⟩ := fs
  refine ⟨?_, ?_, ?_, ?_⟩
  · cases ro with
    | none =>
      cases po with
      | none => simp [selectTarget]
      | some p =>
        by_cases hp : containsSub (markerStart 1) p = true
        · simp [selectTarget, hp]
        · simp only [selectTarget]
          simp at hp
          simp [hp]
    | some d =>
      by_cases hd : containsSub (markerStart 1) d = true
      · simp [selectTarget, hd]
      · cases po with
        | none =>
          simp only [selectTarget]
          simp at hd
          simp [hd]
        | some p =>
          by_cases hp : containsSub (markerStart 1) p = true
          · simp [selectTarget, hd, hp]
          · simp only [selectTarget]
            simp at hd hp
            simp [hd, hp]
  · intro d hd hcont
    simp only at hd
    subst hd
    simp [selectTarget, hcont]
  · intro p hp hcont hnone
    simp only at hp
    subst hp
    cases ro with
    | none => simp [selectTarget, hcont]
    | some d =>
      have hd := hnone d rfl
      simp [selectTarget, hd, hcont]
  · intro hsel
    obtain ⟨r0, rs, rfl⟩ : ∃ r0 rs, repos = r0 :: rs := by
      cases repos with
      | nil => exact absurd rfl hne
      | cons r0 rs => exact ⟨r0, rs, rfl⟩
    rw [update_readme_cons, hsel]

theorem C3_witness :
    (([⟨some "r", some "u", some 1, some "o"⟩] : List Repo) ≠ []) ∧
    (selectTarget ⟨none, none⟩ = none
      → update_readme [(⟨some "r", some "u", some 1, some "o"⟩ : Repo)] ⟨none, none⟩
          = (⟨none, none⟩, false)) :=
  ⟨by decide,
    (C3_amended ⟨none, none⟩ [⟨some "r", some "u", some 1, some "o"⟩]
      (by decide)).2.2.2⟩

/-- C4 (counterexample): patch is not idempotent for every document and
ranked list.  With a repository URL that itself contains a card-shaped
span followed by the end-marker text, the first application produces a
card whose URL embeds `[![q](w)](e)<!-- REPO_1_END -->`; on the second
application the non-greedy match stops at that embedded end marker, the
matched span is replaced again, and the text grows: the second
application differs from the first and reports a change. -/
theorem C4_counterexample :
    (let r : Repo :=
      ⟨some "n", some "http://x/[![q](w)](e)<!-- REPO_1_END -->", some 1, some "alice"⟩
     let d0 := "<!-- REPO_1_START -->\n[![a](b)](c)\n<!-- REPO_1_END -->".toList
     let d1 := (updateSlots "alice" 1 [r] d0).1
     (updateSlots "alice" 1 [r] d1).1 ≠ d1
       ∧ (updateSlots "alice" 1 [r] d1).2 = true) := by decide

/-- C4 (amended): on clean structured documents (literal text free of
`<`, well-formed slots with pairwise distinct indices whose components
avoid the delimiter characters) and repositories and account login whose
strings are free of markdown/marker delimiter characters — in particular
for real GitHub names, logins and URLs — applying the slot loop a second
time with the same ranked list produces a document textually identical to
the result of the first application and reports no further change. -/
theorem C4_amended (u : String) (repos : List Repo) (segs : List Seg)
    (hu : strClean u) (hr : ∀ r ∈ repos, repoClean r)
    (hclean : ∀ g ∈ segs, g.clean) (hnodup : (segs.filterMap Seg.idx).Nodup) :
    updateSlots u 1 (repos.take 6)
        ((updateSlots u 1 (repos.take 6) (renderDoc segs)).1)
      = ((updateSlots u 1 (repos.take 6) (renderDoc segs)).1, false) := by
  rw [updateSlots_canonDoc u repos segs hu hr hclean hnodup]
  exact updateSlots_second_pass u repos segs hu hr hclean hnodup

theorem C4_witness :
    (strClean "alice" ∧ (∀ r ∈ [sampleRepo], repoClean r) ∧
     (∀ g ∈ [Seg.txt "Header ".toList,
        Seg.slot 1 ['\n'] "old".toList "img".toList "tgt".toList ['\n']], g.clean) ∧
     (([Seg.txt "Header ".toList,
        Seg.slot 1 ['\n'] "old".toList "img".toList "tgt".toList ['\n']].filterMap
          Seg.idx).Nodup)) ∧
    updateSlots "alice" 1 ([sampleRepo].take 6)
        ((updateSlots "alice" 1 ([sampleRepo].take 6)
          (renderDoc [Seg.txt "Header ".toList,
            Seg.slot 1 ['\n'] "old".toList "img".toList "tgt".toList ['\n']])).1)
      = ((updateSlots "alice" 1 ([sampleRepo].take 6)
          (renderDoc [Seg.txt "Header ".toList,
            Seg.slot 1 ['\n'] "old".toList "img".toList "tgt".toList ['\n']])).1,
        false) := by
  have hu : strClean "alice" := by
    unfold strClean
    decide
  have hr : ∀ r ∈ [sampleRepo], repoClean r := by
    intro r hrm
    rw [List.mem_singleton] at hrm
    subst hrm
    unfold repoClean strClean
    constructor <;> decide
  have hclean : ∀ g ∈ [Seg.txt "Header ".toList,
      Seg.slot 1 ['\n'] "old".toList "img".toList "tgt".toList ['\n']], g.clean := by
    intro g hg
    rcases List.mem_cons.mp hg with rfl | hg
    · simp only [Seg.clean]
      decide
    · rw [List.mem_singleton] at hg
      subst hg
      simp only [Seg.clean]
      refine ⟨by decide, by decide, by decide, by decide, by decide, by decide, by decide⟩
  have hnodup : (([Seg.txt "Header ".toList,
      Seg.slot 1 ['\n'] "old".toList "img".toList "tgt".toList ['\n']].filterMap
        Seg.idx).Nodup) := by decide
  exact ⟨⟨hu, hr, hclean, hnodup⟩,
    C4_amended "alice" [sampleRepo] _ hu hr hclean hnodup⟩

/-- C6 (counterexample): the claim says the set of modified slots is
exactly those in `{1..min(6, length)}` whose marker pair exists in the
document and whose repository has a name and URL.  In this document the
slot-2 marker pair exists and the second repository has a name and URL,
yet slot 2 is not modified (its placeholder text survives and no slot-2
card is inserted), because the regex only matches a region that already
contains a card-shaped span. -/
theorem C6_counterexample :
    (let doc := ("<!-- REPO_1_START -->\n[![a](b)](c)\n<!-- REPO_1_END -->X"
        ++ "<!-- REPO_2_START -->\nplaceholder\n<!-- REPO_2_END -->").toList
     let r2 : Repo := ⟨some "n2", some "http://e/n2", some 3, some "alice"⟩
     let res := updateSlots "alice" 1
       [⟨some "n1", some "http://e/n1", some 5, some "alice"⟩, r2] doc
     containsSub (markerStart 2) doc = true ∧
     containsSub (markerEnd 2) doc = true ∧
     r2.name.getD "" ≠ "" ∧ r2.html_url.getD "" ≠ "" ∧
     containsSub "placeholder".toList res.1 = true ∧
     containsSub (buildCard "alice".toList "n2".toList "http://e/n2".toList) res.1
        = false) := by decide

/-- C6 (amended): on a clean structured document, one pass of the slot
loop maps each segment pointwise: the slot at index `j` is replaced by
its canonical card region exactly when `j ≤ min(6, ranked-list length)`,
the `j`-th repository has a name and URL, *and* the slot region contains
a card-shaped placeholder (which every well-formed slot of the document
class does); text and all other slots — missing rank positions,
repositories without name or URL — are left unchanged, and a skipped slot
does not abort the processing of the others. -/
theorem C6_amended (u : String) (repos : List Repo) (segs : List Seg)
    (hu : strClean u) (hr : ∀ r ∈ repos, repoClean r)
    (hclean : ∀ g ∈ segs, g.clean) (hnodup : (segs.filterMap Seg.idx).Nodup) :
    (updateSlots u 1 (repos.take 6) (renderDoc segs)).1
      = renderDoc (segs.map (canonSeg u repos)) :=
  updateSlots_canonDoc u repos segs hu hr hclean hnodup

theorem C6_witness :
    (strClean "bob" ∧ (∀ r ∈ [sampleRepo, sampleRepo], repoClean r) ∧
     (∀ g ∈ [Seg.slot 1 ['\n'] "x".toList "y".toList "z".toList ['\n'],
        Seg.txt "middle".toList,
        Seg.slot 3 ['\n'] "p".toList "q".toList "s".toList ['\n']], g.clean) ∧
     (([Seg.slot 1 ['\n'] "x".toList "y".toList "z".toList ['\n'],
        Seg.txt "middle".toList,
        Seg.slot 3 ['\n'] "p".toList "q".toList "s".toList ['\n']].filterMap
          Seg.idx).Nodup)) ∧
    (updateSlots "bob" 1 ([sampleRepo, sampleRepo].take 6)
        (renderDoc [Seg.slot 1 ['\n'] "x".toList "y".toList "z".toList ['\n'],
          Seg.txt "middle".toList,
          Seg.slot 3 ['\n'] "p".toList "q".toList "s".toList ['\n']])).1
      = renderDoc ([Seg.slot 1 ['\n'] "x".toList "y".toList "z".toList ['\n'],
          Seg.txt "middle".toList,
          Seg.slot 3 ['\n'] "p".toList "q".toList "s".toList ['\n']].map
            (canonSeg "bob" [sampleRepo, sampleRepo])) := by
  have hu : strClean "bob" := by
    unfold strClean
    decide
  have hr : ∀ r ∈ [sampleRepo, sampleRepo], repoClean r := by
    intro r hrm
    rcases List.mem_cons.mp hrm with rfl | hrm
    · unfold repoClean strClean
      constructor <;> decide
    · rw [List.mem_singleton] at hrm
      subst hrm
      unfold repoClean strClean
      constructor <;> decide
  have hclean : ∀ g ∈ [Seg.slot 1 ['\n'] "x".toList "y".toList "z".toList ['\n'],
      Seg.txt "middle".toList,
      Seg.slot 3 ['\n'] "p".toList "q".toList "s".toList ['\n']], g.clean := by
    intro g hg
    rcases List.mem_cons.mp hg with rfl | hg
    · simp only [Seg.clean]
      refine ⟨by decide, by decide, by decide, by decide, by decide, by decide, by decide⟩
    · rcases List.mem_cons.mp hg with rfl | hg
      · simp only [Seg.clean]
        decide
      · rw [List.mem_singleton] at hg
        subst hg
        simp only [Seg.clean]
        refine ⟨by decide, by decide, by decide, by decide, by decide, by decide, by decide⟩
  have hnodup : (([Seg.slot 1 ['\n'] "x".toList "y".toList "z".toList ['\n'],
      Seg.txt "middle".toList,
      Seg.slot 3 ['\n'] "p".toList "q".toList "s".toList ['\n']].filterMap
        Seg.idx).Nodup) := by decide
  exact ⟨⟨hu, hr, hclean, hnodup⟩,
    C6_amended "bob" [sampleRepo, sampleRepo] _ hu hr hclean hnodup⟩

/-- C7: the process exits with code 0 exactly when the document update
succeeds: an unresolved account name exits 1, and otherwise the exit code
is 0 when `update_readme` reports success and 1 on any failure (including
"no changes detected", where `update_readme` returns `False`). -/
theorem C7_exit_codes (repoOwner token : Option String) (userLogin : String)
    (net : List (Nat × List Repo)) (fs : Files) :
    (resolvedUsername repoOwner token userLogin = ""
      → mainExit repoOwner token userLogin net fs = 1) ∧
    (resolvedUsername repoOwner token userLogin ≠ ""
      → mainExit repoOwner token userLogin net fs
          = if (update_readme (rankRepos (fetchPages net) 6) fs).2 then 0 else 1) := by
  constructor
  · intro h
    simp only [mainExit]
    rw [if_pos h]
  · intro h
    have ht : pyTruthy (some (resolvedUsername repoOwner token userLogin)) = true := by
      simp only [pyTruthy, bne_iff_ne, ne_eq]
      exact h
    simp only [mainExit]
    rw [if_neg h, get_top_starred_repos, if_pos ht]

theorem C7_witness :
    resolvedUsername (some "alice") none "" ≠ "" ∧
    mainExit (some "alice") none "" [] ⟨none, none⟩
      = if (update_readme (rankRepos (fetchPages []) 6) ⟨none, none⟩).2 then 0
        else 1 :=
  ⟨by decide, (C7_exit_codes (some "alice") none "" [] ⟨none, none⟩).2 (by decide)⟩

/-- C10: when the first repository of a non-empty ranked list lacks an
owner login (or its login is the placeholder `'YOUR_USERNAME'` or empty),
`update_readme` fails and writes nothing, whatever the candidate files
contain; and the owner login used by the update is taken solely from the
first repository: changing the logins of all later repositories does not
change the result at all. -/
theorem C10_owner_login (r0 : Repo) (rs : List Repo) (fs : Files) :
    ((r0.owner_login.getD "YOUR_USERNAME" = ""
        ∨ r0.owner_login.getD "YOUR_USERNAME" = "YOUR_USERNAME")
      → update_readme (r0 :: rs) fs = (fs, false)) ∧
    ∀ login : Option String,
      update_readme (r0 :: rs) fs
        = update_readme (r0 :: rs.map fun x => { x with owner_login := login }) fs := by
  constructor
  · intro hbad
    rw [update_readme_cons]
    cases hsel : selectTarget fs with
    | none => rfl
    | some pr =>
      obtain ⟨isR, content⟩ := pr
      dsimp only
      rw [if_pos hbad]
  · intro login
    rw [update_readme_cons, update_readme_cons]
    cases hsel : selectTarget fs with
    | none => rfl
    | some pr =>
      obtain ⟨isR, content⟩ := pr
      dsimp only
      have h1 : (r0 :: rs).take 6 = r0 :: rs.take 5 := rfl
      have h2 : ((r0 :: rs.map fun x => { x with owner_login := login }).take 6)
          = r0 :: (rs.map fun x => { x with owner_login := login }).take 5 := rfl
      have key : updateSlots (r0.owner_login.getD "YOUR_USERNAME") 1
          ((r0 :: rs.map fun x => { x with owner_login := login }).take 6) content
          = updateSlots (r0.owner_login.getD "YOUR_USERNAME") 1
            ((r0 :: rs).take 6) content := by
        rw [h1, h2, ← List.map_take, updateSlots_cons, updateSlots_cons,
          updateSlots_login_irrel]
      rw [key]

theorem C10_witness :
    ((⟨some "r", some "u", some 1, none⟩ : Repo).owner_login.getD "YOUR_USERNAME" = ""
      ∨ (⟨some "r", some "u", some 1, none⟩ : Repo).owner_login.getD "YOUR_USERNAME"
          = "YOUR_USERNAME") ∧
    update_readme [(⟨some "r", some "u", some 1, none⟩ : Repo)]
        ⟨some "<!-- REPO_1_START -->\n[![a](b)](c)\n<!-- REPO_1_END -->".toList, none⟩
      = (⟨some "<!-- REPO_1_START -->\n[![a](b)](c)\n<!-- REPO_1_END -->".toList, none⟩,
        false) :=
  ⟨by decide,
    (C10_owner_login ⟨some "r", some "u", some 1, none⟩ []
      ⟨some "<!-- REPO_1_START -->\n[![a](b)](c)\n<!-- REPO_1_END -->".toList, none⟩).1
      (by decide)⟩

end UpdateProfile
